import Mathlib

/-!
Verification of the IPAM service's address-space model and allocation engine.

Python strings are modelled as `List Char` (Python compares strings
lexicographically by code point, which `strLt` below reproduces).  Machine
integers are `Nat`; Python's arbitrary-precision `int` needs no wrap-around.
Source files embedded here: `models.py`, `subnets.py`, `ip_addresses.py`,
`dns_zones.py`, plus the fragments of CPython's `ipaddress` module that those
files call into (`IPv4Address`/`IPv6Address`/`ip_network` string handling).
-/

set_option maxRecDepth 4000
set_option linter.unusedVariables false

/-- Lowercase hex digit for a nibble, as produced by Python's `format(_, "x")`. -/
def hexChar (n : Nat) : Char :=
  match n with
  | 0 => '0' | 1 => '1' | 2 => '2' | 3 => '3'
  | 4 => '4' | 5 => '5' | 6 => '6' | 7 => '7'
  | 8 => '8' | 9 => '9' | 10 => 'a' | 11 => 'b'
  | 12 => 'c' | 13 => 'd' | 14 => 'e' | _ => 'f'

/-- Value of a hex digit, upper or lower case, as accepted by Python's
`int(s, 16)`.  Non-hex characters map to 0; callers guard with `isHexDigitPy`. -/
def hexDigitVal (c : Char) : Nat :=
  if '0' ≤ c ∧ c ≤ '9' then c.toNat - '0'.toNat
  else if 'a' ≤ c ∧ c ≤ 'f' then c.toNat - 'a'.toNat + 10
  else if 'A' ≤ c ∧ c ≤ 'F' then c.toNat - 'A'.toNat + 10
  else 0

/-- Python string comparison `s < t`: lexicographic by code point, a proper
prefix is smaller. -/
def strLt : List Char → List Char → Bool
  | _, [] => false
  | [], _ :: _ => true
  | a :: as, b :: bs => if a < b then true else if b < a then false else strLt as bs

/-- Python string comparison `s <= t`. -/
def strLe (s t : List Char) : Bool := strLt s t || s == t

/-- Fuel-driven helper for `hexRep` (structural recursion so that the kernel
can evaluate concrete instances); any fuel above the value is enough. -/
def hexRepAux : Nat → Nat → List Char
  | 0, _ => []
  | fuel + 1, n => if n < 16 then [hexChar n] else hexRepAux fuel (n / 16) ++ [hexChar (n % 16)]

/-- Minimal (unpadded) lowercase hex rendering of a natural number, as Python's
`format(n, "x")` / `"%x" % n`. -/
def hexRep (n : Nat) : List Char := hexRepAux (n + 1) n

/-- `format(n, f"0{k}x")`: lowercase hex, left-padded with zeros to width `k`
(longer values are kept whole, not truncated). -/
def padHex (k n : Nat) : List Char :=
  List.replicate (k - (hexRep n).length) '0' ++ hexRep n

/-- models.py `_int_to_hex`: `format(value, "032x")`. -/
def _int_to_hex (value : Nat) : List Char := padHex 32 value

/-- models.py `_hex_to_int`: `int(value, 16)` on the hex strings this service
stores. -/
def _hex_to_int (value : List Char) : Nat :=
  value.foldl (fun acc c => 16 * acc + hexDigitVal c) 0

/-- Python `s.split(sep)` for a single-character separator. -/
def splitOnChar (sep : Char) : List Char → List (List Char)
  | [] => [[]]
  | c :: rest =>
    match splitOnChar sep rest with
    | g :: gs => if c = sep then [] :: g :: gs else (c :: g) :: gs
    | [] => [[c]]

/-- `sep.join(parts)`: interleave a single-character separator. -/
def joinSep (sep : Char) : List (List Char) → List Char
  | [] => []
  | [x] => x
  | x :: y :: t => x ++ sep :: joinSep sep (y :: t)

/-- Python `s.rstrip(".")`: remove ALL trailing dots. -/
def rstripDots (s : List Char) : List Char :=
  (s.reverse.dropWhile (fun c => c == '.')).reverse

/-- ip_addresses.py `_assert_dns_name_in_zone` and the inline zone check in
subnets.py `allocate_next_ip` (they implement the same predicate): true iff the
rstrip-normalized name equals some rstrip-normalized zone or ends with
`"." + zone`. -/
def dns_name_in_zone (dns_name : List Char) (zones : List (List Char)) : Bool :=
  let normalized := rstripDots dns_name
  zones.any fun z =>
    let zone := rstripDots z
    normalized == zone || List.isSuffixOf ('.' :: zone) normalized

/-- Modelled from the spec: §4.3's membership algorithm as worded — "strip a
single trailing `.` from `name` and from every candidate zone name", then
equality or `"." + zone` suffix.  Kept only for comparison with the source's
`dns_name_in_zone`, which uses `rstrip(".")`. -/
def stripOneDot (s : List Char) : List Char :=
  if s.getLast? = some '.' then s.dropLast else s

/-- Modelled from the spec: the membership predicate under single-dot
stripping. -/
def dns_name_in_zone_spec (dns_name : List Char) (zones : List (List Char)) : Bool :=
  let normalized := stripOneDot dns_name
  zones.any fun z =>
    let zone := stripOneDot z
    normalized == zone || List.isSuffixOf ('.' :: zone) normalized

/-- `[a-zA-Z0-9]` -/
def isAlnum (c : Char) : Bool :=
  ('a' ≤ c && c ≤ 'z') || ('A' ≤ c && c ≤ 'Z') || ('0' ≤ c && c ≤ '9')

/-- ip_addresses.py `_DNS_LABEL_RE = ^[a-zA-Z0-9]([a-zA-Z0-9-]{0,61}[a-zA-Z0-9])?$`. -/
def dnsLabelOk (l : List Char) : Bool :=
  match l with
  | [] => false
  | c :: rest =>
    isAlnum c &&
      match rest with
      | [] => true
      | _ :: _ =>
        rest.length ≤ 62 && rest.dropLast.all (fun d => isAlnum d || d == '-') &&
          isAlnum (rest.getLastD 'x')

/-- ip_addresses.py `_validate_dns_name` (as a Bool: true = accepted by the
schema). -/
def _validate_dns_name (name : List Char) : Bool :=
  name.length ≤ 253 &&
    (let labels := splitOnChar '.' (rstripDots name)
     2 ≤ labels.length && labels.all dnsLabelOk)

/-- models.py `Subnet` row: the stored columns. -/
structure Subnet where
  id : Nat
  name : List Char
  network_address : List Char
  prefix_length : Nat
  is_ipv6 : Bool
  description : Option (List Char)
deriving Repr, DecidableEq

/-- Address width of the subnet's family (32 for IPv4, 128 for IPv6). -/
def Subnet.max_bits (s : Subnet) : Nat := if s.is_ipv6 then 128 else 32

/-- `int(subnet.network.network_address)`. -/
def Subnet.network_int (s : Subnet) : Nat := _hex_to_int s.network_address

/-- `int(subnet.network.broadcast_address)`: with the stored network address's
host bits zeroed this is `network + 2^(bits - prefix) - 1`. -/
def Subnet.broadcast_int (s : Subnet) : Nat :=
  s.network_int + 2 ^ (s.max_bits - s.prefix_length) - 1

/-- models.py `Subnet.total_hosts` (`network.num_addresses`). -/
def Subnet.total_hosts (s : Subnet) : Nat := 2 ^ (s.max_bits - s.prefix_length)

/-- models.py `Subnet.usable_hosts`; note the threshold is
`128 if self.is_ipv6 else 31`. -/
def Subnet.usable_hosts (s : Subnet) : Nat :=
  if s.prefix_length ≥ (if s.is_ipv6 then 128 else 31) then s.total_hosts
  else s.total_hosts - 2

/-- models.py `Subnet.first_usable`, as the address's integer value (the source
renders it to a string; rendering is modelled separately). -/
def Subnet.first_usable_int (s : Subnet) : Nat :=
  if s.prefix_length ≥ (if s.is_ipv6 then 128 else 31) then s.network_int
  else s.network_int + 1

/-- models.py `Subnet.last_usable`, as the address's integer value. -/
def Subnet.last_usable_int (s : Subnet) : Nat :=
  if s.prefix_length ≥ (if s.is_ipv6 then 128 else 31) then s.broadcast_int
  else s.broadcast_int - 1

/-- subnets.py `allocate_next_ip`: `start_int`; note the route's threshold is
`max_prefix - 1` (31 for IPv4, 127 for IPv6). -/
def start_int (s : Subnet) : Nat :=
  if s.prefix_length ≥ s.max_bits - 1 then s.network_int else s.network_int + 1

/-- subnets.py `allocate_next_ip`: `end_int`. -/
def end_int (s : Subnet) : Nat :=
  if s.prefix_length ≥ s.max_bits - 1 then s.broadcast_int else s.broadcast_int - 1

/-- subnets.py `allocate_next_ip`: the candidate walk over the sorted in-range
allocated keys (`for hex_addr in allocated: ...`). -/
def allocWalk : List (List Char) → List Char → List Char
  | [], candidate => candidate
  | a :: rest, candidate =>
    if strLt candidate a then candidate
    else allocWalk rest (_int_to_hex (_hex_to_int candidate + 1))

/-- Insertion step for `pySorted`. -/
def insertSorted (x : List Char) : List (List Char) → List (List Char)
  | [] => [x]
  | y :: ys => if strLe x y then x :: y :: ys else y :: insertSorted x ys

/-- Python `sorted(...)` on strings (any sorting algorithm agrees on a list of
strings under a total order; the source's keys are pairwise distinct). -/
def pySorted : List (List Char) → List (List Char)
  | [] => []
  | x :: xs => insertSorted x (pySorted xs)

inductive AllocOutcome where
  | badDnsName
  | noUsable
  | exhausted
  | ok (address : List Char)
deriving Repr, DecidableEq

/-- subnets.py `allocate_next_ip` (the compute part, given the subnet row, the
declared zone names, the request's dns_name, and this subnet's stored address
keys): zone check, usable range, load-and-sort the in-range keys, walk to the
first gap, exhaustion check. -/
def allocate_next_ip (subnet : Subnet) (zones : List (List Char))
    (dns_name : Option (List Char)) (occupied : List (List Char)) : AllocOutcome :=
  let zoneOk := match dns_name with
    | some d => dns_name_in_zone d zones
    | none => true
  if !zoneOk then .badDnsName
  else
    let s := start_int subnet
    let e := end_int subnet
    if s > e then .noUsable
    else
      let start_hex := _int_to_hex s
      let end_hex := _int_to_hex e
      let allocated := pySorted (occupied.filter fun a => strLe start_hex a && strLe a end_hex)
      let candidate := allocWalk allocated start_hex
      if strLt end_hex candidate then .exhausted else .ok candidate

/-- models.py `IPAddress.address` carries `unique=True`: inserting an existing
key fails the transaction (IntegrityError), otherwise the row is stored. -/
def insert_unique (store : List (List Char)) (k : List Char) :
    Option (List (List Char)) :=
  if k ∈ store then none else some (store ++ [k])

inductive AllocPersistOutcome where
  | badDnsName
  | noUsable
  | exhausted
  | conflict
  | ok (address : List Char) (store : List (List Char))
deriving Repr, DecidableEq

/-- subnets.py `allocate_next_ip` end to end: compute the candidate from the
occupied keys read for this subnet (`snapshot`), then `db.add`/`db.commit`
against the full address table (`store`).  The route wraps the commit in no
try/except: a uniqueness violation (a concurrent writer inserted the same key
after the snapshot was read) propagates as `conflict` — there is no retry. -/
def allocate_and_persist (subnet : Subnet) (zones : List (List Char))
    (dns_name : Option (List Char)) (snapshot store : List (List Char)) :
    AllocPersistOutcome :=
  match allocate_next_ip subnet zones dns_name snapshot with
  | .badDnsName => .badDnsName
  | .noUsable => .noUsable
  | .exhausted => .exhausted
  | .ok candidate =>
    match insert_unique store candidate with
    | none => .conflict
    | some store' => .ok candidate store'

/-- models.py `IPAddress` row: the stored columns. -/
structure IPAddress where
  id : Nat
  address : List Char
  is_ipv6 : Bool
  dns_name : Option (List Char)
  description : Option (List Char)
  subnet_id : Nat
deriving Repr, DecidableEq

/-- Modelled from the spec: the `DNSZone` ORM class is imported from models.py
by every router yet is absent from the given copy of models.py; its fields are
reconstructed from §3 of the spec and the attribute accesses in dns_zones.py.
Per the spec and per models.py's `IPAddress` (which has no zone foreign key),
there is no foreign key and no cascade between DNSZone and IPAddress. -/
structure DNSZone where
  id : Nat
  name : List Char
  description : Option (List Char)
  soa_mname : List Char
  soa_rname : List Char
  soa_serial : Nat
  soa_refresh : Nat
  soa_retry : Nat
  soa_expire : Nat
  soa_minimum : Nat
deriving Repr, DecidableEq

/-- The persisted tables. -/
structure DBState where
  subnets : List Subnet
  ip_addresses : List IPAddress
  zones : List DNSZone
deriving Repr, DecidableEq

/-- dns_zones.py `delete_dns_zone`: 404 (`none`) if no zone has the id,
otherwise delete that zone row only and commit. -/
def delete_dns_zone (st : DBState) (zone_id : Nat) : Option DBState :=
  match st.zones.find? (fun z => z.id == zone_id) with
  | none => none
  | some _ => some { st with zones := st.zones.filter (fun w => w.id != zone_id) }

inductive UpdateResult where
  | notFound
  | badDnsName
  | ok (st : DBState) (updated : IPAddress)
deriving Repr, DecidableEq

/-- ip_addresses.py `update_ip_address`: find by id (404 if absent), zone-check
a provided dns_name (400), then overwrite BOTH mutable fields with the body's
values (`ip.dns_name = body.dns_name; ip.description = body.description` — an
omitted body field is None) and commit. -/
def update_ip_address (st : DBState) (ip_address_id : Nat)
    (body_dns_name body_description : Option (List Char)) : UpdateResult :=
  match st.ip_addresses.find? (fun ip => ip.id == ip_address_id) with
  | none => .notFound
  | some ip =>
    let zoneOk := match body_dns_name with
      | some d => dns_name_in_zone d (st.zones.map (fun z => z.name))
      | none => true
    if !zoneOk then .badDnsName
    else
      let ip' := { ip with dns_name := body_dns_name, description := body_description }
      .ok { st with
            ip_addresses :=
              st.ip_addresses.map (fun j => if j.id == ip_address_id then ip' else j) }
        ip'

/-- ASCII decimal digit (CPython guards octets with `isascii() and isdigit()`,
which together admit exactly `0`-`9`). -/
def isDecDigit (c : Char) : Bool := '0' ≤ c && c ≤ '9'

/-- Value of a decimal digit. -/
def decDigitVal (c : Char) : Nat := c.toNat - '0'.toNat

/-- `int(s, 10)` on digit strings. -/
def decVal (s : List Char) : Nat := s.foldl (fun acc c => 10 * acc + decDigitVal c) 0

/-- Fuel-driven helper for `decRep` (structural recursion for kernel
evaluation); any fuel above the value is enough. -/
def decRepAux : Nat → Nat → List Char
  | 0, _ => []
  | fuel + 1, n => if n < 10 then [hexChar n] else decRepAux fuel (n / 10) ++ [hexChar (n % 10)]

/-- Python `str(n)` for a natural number (canonical decimal, no leading
zeros). -/
def decRep (n : Nat) : List Char := decRepAux (n + 1) n

/-- CPython `IPv4Address._parse_octet`: non-empty, ASCII digits only, at most
3 characters, no leading zero, value at most 255. -/
def _parse_octet (s : List Char) : Option Nat :=
  if s.isEmpty then none
  else if !(s.all isDecDigit) then none
  else if decide (s.length > 3) then none
  else if !(s == ['0']) && (s.headD 'x' == '0') then none
  else
    let v := decVal s
    if decide (v > 255) then none else some v

/-- CPython `IPv4Address._ip_int_from_string`: exactly 4 octets joined by `.`,
assembled big-endian. -/
def ipv4_from_string (s : List Char) : Option Nat :=
  match splitOnChar '.' s with
  | [a, b, c, d] =>
    match _parse_octet a, _parse_octet b, _parse_octet c, _parse_octet d with
    | some va, some vb, some vc, some vd =>
      some (va * 2 ^ 24 + vb * 2 ^ 16 + vc * 2 ^ 8 + vd)
    | _, _, _, _ => none
  | _ => none

/-- CPython `str(IPv4Address)`: `'.'.join(map(str, packed_bytes))`. -/
def ipv4_to_string (n : Nat) : List Char :=
  joinSep '.'
    [decRep (n / 2 ^ 24 % 256), decRep (n / 2 ^ 16 % 256),
      decRep (n / 2 ^ 8 % 256), decRep (n % 256)]

/-- CPython `_HEX_DIGITS`: hex digit, either case. -/
def isHexDigitPy (c : Char) : Bool :=
  isDecDigit c || ('a' ≤ c && c ≤ 'f') || ('A' ≤ c && c ≤ 'F')

/-- CPython `IPv6Address._parse_hextet`: hex digits only, at most 4 of them,
non-empty (`int('', 16)` raises). -/
def _parse_hextet (s : List Char) : Option Nat :=
  if !(s.all isHexDigitPy) then none
  else if decide (s.length > 4) then none
  else if s.isEmpty then none
  else some (_hex_to_int s)

/-- The parser's interior `::` scan: `for i in range(1, len(parts) - 1)`,
failing (`none`) on a second empty part; `some acc` carries the optional skip
index. -/
def findSkipAux : List (List Char) → Nat → Option Nat → Option (Option Nat)
  | [], _, acc => some acc
  | p :: t, i, acc =>
    if p.isEmpty then
      match acc with
      | some _ => none
      | none => findSkipAux t (i + 1) (some i)
    else findSkipAux t (i + 1) acc

/-- The parser's hextet accumulation: `ip_int = (ip_int << 16) | hextet`. -/
def foldHextets : List (List Char) → Nat → Option Nat
  | [], acc => some acc
  | p :: t, acc =>
    match _parse_hextet p with
    | none => none
    | some v => foldHextets t (acc <<< 16 ||| v)

/-- CPython `IPv6Address._ip_int_from_string` after a `::` was found at
`skipIdx`: trim an empty endpoint next to the `::`, require at least one
skipped group, then assemble high parts, zero gap, low parts. -/
def ipv6_assemble (parts : List (List Char)) (skipIdx : Nat) : Option Nat :=
  let headEmpty := (parts.headD ['x']).isEmpty
  let lastEmpty := (parts.getLastD ['x']).isEmpty
  let hi := if headEmpty then skipIdx - 1 else skipIdx
  let lo0 := parts.length - skipIdx - 1
  let lo := if lastEmpty then lo0 - 1 else lo0
  if headEmpty && decide (hi ≠ 0) then none
  else if lastEmpty && decide (lo ≠ 0) then none
  else
    let skipped := 8 - (hi + lo)
    if decide (skipped = 0) then none
    else
      match foldHextets (parts.take hi) 0 with
      | none => none
      | some hiv => foldHextets (parts.drop (parts.length - lo)) (hiv <<< (16 * skipped))

/-- CPython `IPv6Address._ip_int_from_string`: split on `:`, expand a trailing
IPv4-style suffix into two hextets, bound the part count, locate at most one
interior `::`, then assemble.  Scoped literals (`%zone`) are outside the
modelled fragment (their `%` fails the hextet check here). -/
def ipv6_from_string (s : List Char) : Option Nat :=
  if s.isEmpty then none
  else
    let parts := splitOnChar ':' s
    if decide (parts.length < 3) then none
    else
      let expanded : Option (List (List Char)) :=
        if '.' ∈ parts.getLastD [] then
          match ipv4_from_string (parts.getLastD []) with
          | none => none
          | some v4 =>
            some (parts.dropLast ++ [hexRep (v4 >>> 16 % 65536), hexRep (v4 % 65536)])
        else some parts
      match expanded with
      | none => none
      | some parts =>
        if decide (parts.length > 9) then none
        else
          match findSkipAux ((parts.drop 1).dropLast) 1 none with
          | none => none
          | some (some skipIdx) => ipv6_assemble parts skipIdx
          | some none =>
            if decide (parts.length ≠ 8) then none
            else if (parts.headD ['x']).isEmpty then none
            else if (parts.getLastD ['x']).isEmpty then none
            else foldHextets parts 0

/-- The 8 minimal-hex hextet strings of an IPv6 value (CPython slices
`'%032x' % n` into 4-character groups and re-renders each with `'%x'`). -/
def hextets8 (n : Nat) : List (List Char) :=
  (List.range 8).map fun i => hexRep (n / 2 ^ (16 * (7 - i)) % 65536)

/-- CPython `_compress_hextets`'s best-run scan.  CPython tracks the current
run with a `-1` start sentinel; a current length of 0 plays that role here. -/
def bestRunAux : List (List Char) → Nat → Nat × Nat → Nat × Nat → Nat × Nat
  | [], _, best, _ => best
  | h :: t, i, best, cur =>
    if h == ['0'] then
      let cs := if cur.2 = 0 then i else cur.1
      let cl := cur.2 + 1
      let best' := if cl > best.2 then (cs, cl) else best
      bestRunAux t (i + 1) best' (cs, cl)
    else bestRunAux t (i + 1) best (0, 0)

/-- The (start, length) of the leftmost longest run of `"0"` hextets. -/
def bestRun (hs : List (List Char)) : Nat × Nat := bestRunAux hs 0 (0, 0) (0, 0)

/-- CPython `IPv6Address._compress_hextets`: replace the best run (when longer
than 1) by an empty part, re-adding an empty part at a collapsed end. -/
def _compress_hextets (hs : List (List Char)) : List (List Char) :=
  let best := bestRun hs
  if decide (best.2 > 1) then
    let bestEnd := best.1 + best.2
    let hs1 := if bestEnd = hs.length then hs ++ [[]] else hs
    let hs2 := hs1.take best.1 ++ [[]] ++ hs1.drop bestEnd
    if best.1 = 0 then [] :: hs2 else hs2
  else hs

/-- CPython `str(IPv6Address)` (no scope): compressed lowercase hextets. -/
def ipv6_to_string (n : Nat) : List Char := joinSep ':' (_compress_hextets (hextets8 n))

/-- CPython `ipaddress.ip_address(s)`: try `IPv4Address` then `IPv6Address`.
Returns the family flag (`is_ipv6`) and the address value. -/
def ip_address (s : List Char) : Option (Bool × Nat) :=
  match ipv4_from_string s with
  | some v => some (false, v)
  | none =>
    match ipv6_from_string s with
    | some v => some (true, v)
    | none => none

/-- models.py `IPAddress.address_str`: render the stored hex key under the
row's family flag. -/
def address_str (is_ipv6 : Bool) (address : List Char) : List Char :=
  if is_ipv6 then ipv6_to_string (_hex_to_int address)
  else ipv4_to_string (_hex_to_int address)

/-- decode∘encode across the service: parse an address literal, store it as
models.py's hex key under its family flag (`IPAddress.from_string`), render it
back (`IPAddress.address_str`). -/
def decode_encode (s : List Char) : Option (List Char) :=
  match ip_address s with
  | none => none
  | some (fam, v) => some (address_str fam (_int_to_hex v))

/-- CPython `_BaseNetwork.__contains__` for an address: always false across
families, else membership in network..broadcast inclusive (the netmask form
`addr & netmask == network_address`, equivalent here because the stored
network address has its host bits zeroed).  Used by models.py
`IPAddress.from_string` via `addr not in subnet.network`. -/
def Subnet.network_contains (s : Subnet) (is_ipv6 : Bool) (v : Nat) : Bool :=
  is_ipv6 == s.is_ipv6 && decide (s.network_int ≤ v) && decide (v ≤ s.broadcast_int)

inductive CreateResult where
  | invalidAddress
  | subnetNotFound
  | badDnsName
  | duplicate
  | outOfRange
  | ok (created : IPAddress)
deriving Repr, DecidableEq

/-- ip_addresses.py `create_ip_address` with models.py `IPAddress.from_string`
inlined at its call site: look up the subnet (404), zone-check a provided
dns_name (400), parse the schema-validated address literal, reject a duplicate
key (409), reject an address outside the subnet's full network range (the
`ValueError` surfaced as HTTP 400), else insert the row.  Every error path
returns the state unchanged — the exception is raised before `db.add`. -/
def create_ip_address (st : DBState) (new_id : Nat) (body_address : List Char)
    (body_subnet_id : Nat) (body_dns_name body_description : Option (List Char)) :
    DBState × CreateResult :=
  match st.subnets.find? (fun s => s.id == body_subnet_id) with
  | none => (st, .subnetNotFound)
  | some subnet =>
    let zoneOk := match body_dns_name with
      | some d => dns_name_in_zone d (st.zones.map fun z => z.name)
      | none => true
    if !zoneOk then (st, .badDnsName)
    else
      match ip_address body_address with
      | none => (st, .invalidAddress)
      | some (fam, v) =>
        let hex_addr := _int_to_hex v
        if st.ip_addresses.any (fun ip => ip.address == hex_addr) then (st, .duplicate)
        else if !(subnet.network_contains fam v) then (st, .outOfRange)
        else
          let row : IPAddress :=
            ⟨new_id, hex_addr, fam, body_dns_name, body_description, subnet.id⟩
          ({ st with ip_addresses := st.ip_addresses ++ [row] }, .ok row)

/-- CPython `_prefix_from_prefix_string` with maximum `maxp`: ASCII decimal
digits only, value within `[0, maxp]`. -/
def _prefix_from_prefix_string (s : List Char) (maxp : Nat) : Option Nat :=
  if s.isEmpty then none
  else if !(s.all isDecDigit) then none
  else
    let v := decVal s
    if decide (v > maxp) then none else some v

/-- Zero the host bits: `addr & netmask`; the netmask is the high-ones mask of
`prefixlen`, so this is `addr >>> h <<< h` with `h = bits - prefixlen`. -/
def maskAddr (bits prefixlen v : Nat) : Nat :=
  v >>> (bits - prefixlen) <<< (bits - prefixlen)

/-- CPython `IPv4Network(s, strict=False)` from a string: at most one `/`,
address part, prefix part (default 32), host bits zeroed. -/
def ipv4_network_from_string (s : List Char) : Option (Nat × Nat) :=
  match splitOnChar '/' s with
  | [a] =>
    match ipv4_from_string a with
    | none => none
    | some v => some (maskAddr 32 32 v, 32)
  | [a, p] =>
    match ipv4_from_string a with
    | none => none
    | some v =>
      match _prefix_from_prefix_string p 32 with
      | none => none
      | some pl => some (maskAddr 32 pl v, pl)
  | _ => none

/-- CPython `IPv6Network(s, strict=False)` from a string. -/
def ipv6_network_from_string (s : List Char) : Option (Nat × Nat) :=
  match splitOnChar '/' s with
  | [a] =>
    match ipv6_from_string a with
    | none => none
    | some v => some (maskAddr 128 128 v, 128)
  | [a, p] =>
    match ipv6_from_string a with
    | none => none
    | some v =>
      match _prefix_from_prefix_string p 128 with
      | none => none
      | some pl => some (maskAddr 128 pl v, pl)
  | _ => none

/-- CPython `ipaddress.ip_network(s, strict=False)`: try IPv4 then IPv6.
Returns (is_ipv6, network value, prefix length). -/
def ip_network (s : List Char) : Option (Bool × Nat × Nat) :=
  match ipv4_network_from_string s with
  | some (net, pl) => some (false, net, pl)
  | none =>
    match ipv6_network_from_string s with
    | some (net, pl) => some (true, net, pl)
    | none => none

/-- subnets.py `SubnetCreate.validate_cidr` / models.py `Subnet.from_cidr`:
the stored (hex network key, prefix length, family) triple. -/
def normalize_cidr (s : List Char) : Option (List Char × Nat × Bool) :=
  match ip_network s with
  | none => none
  | some (fam, net, pl) => some (_int_to_hex net, pl, fam)

/-- CPython `str(network)`: address rendering, `/`, prefix length. -/
def network_str (fam : Bool) (net pl : Nat) : List Char :=
  (if fam then ipv6_to_string net else ipv4_to_string net) ++ '/' :: decRep pl

/-- Example fixture: the IPv6 /128 subnet holding the highest address. -/
def exampleTopV6 : Subnet := ⟨1, [], _int_to_hex (2 ^ 128 - 1), 128, true, none⟩

/-- Example fixture: 2001:db8::/127. -/
def exampleV6Slash127 : Subnet :=
  ⟨2, [], _int_to_hex 0x20010db8000000000000000000000000, 127, true, none⟩

/-- Example fixture: 10.0.0.0/30. -/
def exampleV4Slash30 : Subnet := ⟨3, [], _int_to_hex 0x0a000000, 30, false, none⟩

/-- Example fixture: a DNS zone row. -/
def exampleZone : DNSZone :=
  ⟨1, "example.com".toList, none, "ns1.example.com".toList,
    "admin.example.com".toList, 1, 3600, 600, 604800, 86400⟩

/-- Example fixture: an IP address row registered under the zone. -/
def exampleIP : IPAddress :=
  ⟨1, _int_to_hex 0x0a000001, false, some ("host.example.com".toList), none, 3⟩

/-- Example fixture: the updated row for the update-route witness. -/
def exampleUpdatedIP : IPAddress :=
  ⟨1, _int_to_hex 0x0a000001, false, none, some ("newdesc".toList), 3⟩

/-- Example fixture: a small database state. -/
def exampleState : DBState := ⟨[exampleV4Slash30], [exampleIP], [exampleZone]⟩

-- ======================================================================
-- Theorems
-- ======================================================================

theorem hex_div_lt {n k : Nat} (h : n < 16 ^ (k + 1)) : n / 16 < 16 ^ k := by
  have h16 : (16 : Nat) ^ (k + 1) = 16 * 16 ^ k := by ring
  exact Nat.div_lt_of_lt_mul (h16 ▸ h)

theorem hexRepAux_fuel_irrel {f₁ f₂ n : Nat} (h₁ : n < f₁) (h₂ : n < f₂) :
    hexRepAux f₁ n = hexRepAux f₂ n := by
  induction n using Nat.strongRecOn generalizing f₁ f₂ with
  | _ n ih =>
    cases f₁ with
    | zero => omega
    | succ g₁ =>
      cases f₂ with
      | zero => omega
      | succ g₂ =>
        rw [hexRepAux, hexRepAux]
        by_cases hn : n < 16
        · simp [hn]
        · simp only [hn, if_false]
          have hdiv : n / 16 < n := Nat.div_lt_self (by omega) (by omega)
          have hrec : hexRepAux g₁ (n / 16) = hexRepAux g₂ (n / 16) :=
            ih (n / 16) hdiv (by omega) (by omega)
          rw [hrec]

theorem hexRep_eq (n : Nat) :
    hexRep n = if n < 16 then [hexChar n] else hexRep (n / 16) ++ [hexChar (n % 16)] := by
  unfold hexRep
  rw [hexRepAux]
  by_cases hn : n < 16
  · simp [hn]
  · simp only [hn, if_false]
    have hdiv : n / 16 < n := Nat.div_lt_self (by omega) (by omega)
    rw [hexRepAux_fuel_irrel (by omega) (Nat.lt_succ_self _)]

theorem hexChar_lt_iff {m n : Nat} (hm : m < 16) (hn : n < 16) :
    hexChar m < hexChar n ↔ m < n := by
  interval_cases m <;> interval_cases n <;> simp [hexChar]

theorem hexChar_inj {m n : Nat} (hm : m < 16) (hn : n < 16)
    (h : hexChar m = hexChar n) : m = n := by
  rcases Nat.lt_trichotomy m n with hlt | heq | hgt
  · exact absurd h (by have := (hexChar_lt_iff hm hn).2 hlt; exact ne_of_lt this)
  · exact heq
  · exact absurd h.symm (by have := (hexChar_lt_iff hn hm).2 hgt; exact ne_of_lt this)

theorem hexDigitVal_hexChar {d : Nat} (hd : d < 16) :
    hexDigitVal (hexChar d) = d := by
  interval_cases d <;> decide

theorem hexRep_ne_nil (n : Nat) : hexRep n ≠ [] := by
  rw [hexRep_eq]
  split <;> simp

theorem hexRep_small {n : Nat} (h : n < 16) : hexRep n = [hexChar n] := by
  rw [hexRep_eq]
  simp [h]

theorem hexRep_length_le {n k : Nat} (hk : 1 ≤ k) (h : n < 16 ^ k) :
    (hexRep n).length ≤ k := by
  induction k generalizing n with
  | zero => omega
  | succ k ih =>
    rw [hexRep_eq]
    split
    · simp
    · rename_i hn
      have hk1 : 1 ≤ k := by
        by_contra hk0
        have hz : k = 0 := by omega
        subst hz
        simp at h
        omega
      have := ih hk1 (hex_div_lt h)
      simp only [List.length_append, List.length_cons, List.length_nil]
      omega

theorem padHex_one {n : Nat} (h : n < 16) : padHex 1 n = [hexChar n] := by
  rw [padHex, hexRep_small h]
  simp

theorem padHex_succ {k : Nat} (hk : 1 ≤ k) (n : Nat) :
    padHex (k + 1) n = padHex k (n / 16) ++ [hexChar (n % 16)] := by
  rw [padHex, padHex]
  conv_lhs => rw [hexRep_eq]
  split
  · rename_i hn
    have h16 : n / 16 = 0 := by omega
    have hmod : n % 16 = n := by omega
    rw [h16, hmod, hexRep_small (by omega : (0:Nat) < 16)]
    simp only [List.length_cons, List.length_nil]
    have hrep : List.replicate (k + 1 - 1) '0' = List.replicate (k - 1) '0' ++ [hexChar 0] := by
      have h1 : k + 1 - 1 = (k - 1) + 1 := by omega
      have h2 : List.replicate ((k - 1) + 1) '0' = List.replicate (k - 1) '0' ++ ['0'] :=
        List.replicate_succ' (k - 1) '0'
      rw [h1, h2]
      rfl
    rw [hrep, List.append_assoc]
  · rename_i hn
    simp only [List.length_append, List.length_cons, List.length_nil]
    have h1 : k + 1 - ((hexRep (n / 16)).length + 1) = k - (hexRep (n / 16)).length := by omega
    rw [h1, List.append_assoc]

theorem padHex_length {n k : Nat} (hk : 1 ≤ k) (h : n < 16 ^ k) :
    (padHex k n).length = k := by
  induction k generalizing n with
  | zero => omega
  | succ k ih =>
    by_cases hk1 : 1 ≤ k
    · rw [padHex_succ hk1]
      simp [List.length_append, ih hk1 (hex_div_lt h)]
    · have hz : k = 0 := by omega
      subst hz
      simp at h
      rw [padHex_one h]
      rfl

theorem strLt_singleton (a b : Char) : strLt [a] [b] = true ↔ a < b := by
  rcases lt_trichotomy a b with hab | hab | hab
  · simp [strLt, hab]
  · subst hab; simp [strLt, lt_irrefl]
  · simp [strLt, not_lt_of_gt hab, hab]

theorem strLt_append_last {xs ys : List Char} (a b : Char)
    (hlen : xs.length = ys.length) :
    strLt (xs ++ [a]) (ys ++ [b]) = true ↔
      strLt xs ys = true ∨ (xs = ys ∧ a < b) := by
  induction xs generalizing ys with
  | nil =>
    have hys : ys = [] := by
      cases ys with
      | nil => rfl
      | cons _ _ => simp at hlen
    subst hys
    simp only [List.nil_append]
    rw [strLt_singleton]
    simp [strLt]
  | cons x xs ih =>
    cases ys with
    | nil => simp at hlen
    | cons y ys =>
      have hlen' : xs.length = ys.length := by simpa using hlen
      simp only [List.cons_append]
      rw [strLt]
      conv_rhs => rw [strLt]
      rcases lt_trichotomy x y with hxy | hxy | hxy
      · simp [hxy]
      · subst hxy
        simp only [lt_irrefl, if_false]
        rw [ih hlen']
        constructor
        · rintro (h | ⟨h1, h2⟩)
          · exact Or.inl h
          · exact Or.inr ⟨by rw [h1], h2⟩
        · rintro (h | ⟨h1, h2⟩)
          · exact Or.inl h
          · exact Or.inr ⟨by injection h1, h2⟩
      · have h1 : ¬ x < y := not_lt_of_gt hxy
        have h2 : ¬ (x = y) := ne_of_gt hxy
        simp [h1, hxy, h2]

theorem padHex_inj {k m n : Nat} (hk : 1 ≤ k) (hm : m < 16 ^ k) (hn : n < 16 ^ k)
    (h : padHex k m = padHex k n) : m = n := by
  induction k generalizing m n with
  | zero => omega
  | succ k ih =>
    by_cases hk1 : 1 ≤ k
    · rw [padHex_succ hk1, padHex_succ hk1] at h
      have hql : (padHex k (m / 16)).length = k := padHex_length hk1 (hex_div_lt hm)
      have hqr : (padHex k (n / 16)).length = k := padHex_length hk1 (hex_div_lt hn)
      obtain ⟨h1, h2⟩ := List.append_inj h (by rw [hql, hqr])
      have hdig : m % 16 = n % 16 := by
        have hc : hexChar (m % 16) = hexChar (n % 16) := by injection h2 with h2' _
        exact hexChar_inj (Nat.mod_lt _ (by omega)) (Nat.mod_lt _ (by omega)) hc
      have hdiv : m / 16 = n / 16 := ih hk1 (hex_div_lt hm) (hex_div_lt hn) h1
      omega
    · have hz : k = 0 := by omega
      subst hz
      simp at hm hn
      rw [padHex_one hm, padHex_one hn] at h
      exact hexChar_inj hm hn (by injection h)

theorem nat_lt_iff_div_mod16 (m n : Nat) :
    m < n ↔ m / 16 < n / 16 ∨ (m / 16 = n / 16 ∧ m % 16 < n % 16) := by
  omega

theorem padHex_lt_iff {k m n : Nat} (hk : 1 ≤ k) (hm : m < 16 ^ k) (hn : n < 16 ^ k) :
    strLt (padHex k m) (padHex k n) = true ↔ m < n := by
  induction k generalizing m n with
  | zero => omega
  | succ k ih =>
    by_cases hk1 : 1 ≤ k
    · have hqm := hex_div_lt hm
      have hqn := hex_div_lt hn
      rw [padHex_succ hk1, padHex_succ hk1]
      rw [strLt_append_last _ _ (by rw [padHex_length hk1 hqm, padHex_length hk1 hqn])]
      rw [ih hk1 hqm hqn]
      rw [nat_lt_iff_div_mod16 m n]
      constructor
      · rintro (h | ⟨h1, h2⟩)
        · exact Or.inl h
        · refine Or.inr ⟨padHex_inj hk1 hqm hqn h1, ?_⟩
          exact (hexChar_lt_iff (Nat.mod_lt _ (by omega)) (Nat.mod_lt _ (by omega))).1 h2
      · rintro (h | ⟨h1, h2⟩)
        · exact Or.inl h
        · refine Or.inr ⟨by rw [h1], ?_⟩
          exact (hexChar_lt_iff (Nat.mod_lt _ (by omega)) (Nat.mod_lt _ (by omega))).2 h2
    · have hz : k = 0 := by omega
      subst hz
      simp at hm hn
      rw [padHex_one hm, padHex_one hn, strLt_singleton]
      exact hexChar_lt_iff hm hn

theorem _hex_to_int_padHex {k n : Nat} (hk : 1 ≤ k) (h : n < 16 ^ k) :
    _hex_to_int (padHex k n) = n := by
  induction k generalizing n with
  | zero => omega
  | succ k ih =>
    by_cases hk1 : 1 ≤ k
    · rw [padHex_succ hk1]
      unfold _hex_to_int
      rw [List.foldl_append]
      have hrec := ih hk1 (hex_div_lt h)
      unfold _hex_to_int at hrec
      rw [hrec]
      simp only [List.foldl_cons, List.foldl_nil]
      rw [hexDigitVal_hexChar (Nat.mod_lt _ (by omega))]
      omega
    · have hz : k = 0 := by omega
      subst hz
      simp at h
      rw [padHex_one h]
      unfold _hex_to_int
      simp [hexDigitVal_hexChar h]

theorem sixteen_pow_32 : (16 : Nat) ^ 32 = 2 ^ 128 := by norm_num

/-- C5: the fixed-width 32-character zero-padded lowercase hex encoding is
strictly order-preserving on `[0, 2^128)`: `_int_to_hex a` compares
lexicographically (Python string `<`) below `_int_to_hex b` iff `a < b`
numerically, so lexicographic comparison of stored keys equals numeric
address comparison. -/
theorem int_to_hex_lt_iff {a b : Nat} (ha : a < 2 ^ 128) (hb : b < 2 ^ 128) :
    strLt (_int_to_hex a) (_int_to_hex b) = true ↔ a < b := by
  unfold _int_to_hex
  exact padHex_lt_iff (by omega) (by rw [sixteen_pow_32]; exact ha)
    (by rw [sixteen_pow_32]; exact hb)

/-- Witness for C5 at concrete inputs `10.0.0.1` and `10.0.0.2`. -/
theorem int_to_hex_lt_iff_w :
    (0x0a000001 : Nat) < 2 ^ 128 ∧ (0x0a000002 : Nat) < 2 ^ 128 ∧
      (strLt (_int_to_hex 0x0a000001) (_int_to_hex 0x0a000002) = true ↔
        (0x0a000001 : Nat) < 0x0a000002) :=
  ⟨by norm_num, by norm_num,
    int_to_hex_lt_iff (by norm_num) (by norm_num)⟩

theorem rstripDots_concat_ne {xs : List Char} {x : Char} (hx : x ≠ '.') :
    rstripDots (xs ++ [x]) = xs ++ [x] := by
  unfold rstripDots
  rw [List.reverse_append]
  have hx' : (x == '.') = false := by simp [hx]
  simp [List.dropWhile_cons, hx']

theorem rstripDots_concat_dot {xs : List Char} (h : xs.getLast? ≠ some '.') :
    rstripDots (xs ++ ['.']) = xs := by
  have hdw : xs.reverse.dropWhile (fun c => c == '.') = xs.reverse := by
    cases hrev : xs.reverse with
    | nil => rfl
    | cons a t =>
      have hga : xs.getLast? = some a := by
        rw [← List.head?_reverse, hrev]
        rfl
      have ha : (a == '.') = false := by
        simp only [beq_eq_false_iff_ne, ne_eq]
        intro hae
        exact h (by rw [hga, hae])
      rw [List.dropWhile_cons, ha]
      simp
  unfold rstripDots
  rw [List.reverse_append]
  simp only [List.reverse_cons, List.reverse_nil, List.nil_append, List.singleton_append]
  rw [List.dropWhile_cons]
  simp only [beq_self_eq_true, if_true]
  rw [hdw, List.reverse_reverse]

theorem rstripDots_eq_stripOneDot {s : List Char} (h : ¬ ['.', '.'] <:+ s) :
    rstripDots s = stripOneDot s := by
  induction s using List.reverseRecOn with
  | nil => rfl
  | append_singleton xs x ih =>
    by_cases hx : x = '.'
    · subst hx
      have hxs : xs.getLast? ≠ some '.' := by
        intro hlast
        apply h
        have hxe : xs.dropLast ++ ['.'] = xs :=
          List.dropLast_append_getLast? '.' (by simpa using hlast)
        refine ⟨xs.dropLast, ?_⟩
        rw [show (['.', '.'] : List Char) = ['.'] ++ ['.'] from rfl,
          ← List.append_assoc, hxe]
      rw [rstripDots_concat_dot hxs, stripOneDot]
      simp [List.getLast?_concat, List.dropLast_concat]
    · rw [rstripDots_concat_ne hx, stripOneDot]
      simp [List.getLast?_concat, hx]

theorem dns_name_in_zone_eq_spec (name : List Char) (zones : List (List Char))
    (hn : ¬ ['.', '.'] <:+ name) (hz : ∀ z ∈ zones, ¬ ['.', '.'] <:+ z) :
    dns_name_in_zone name zones = dns_name_in_zone_spec name zones := by
  unfold dns_name_in_zone dns_name_in_zone_spec
  rw [rstripDots_eq_stripOneDot hn]
  induction zones with
  | nil => rfl
  | cons z zs ih =>
    simp only [List.any_cons]
    rw [rstripDots_eq_stripOneDot (hz z (by simp))]
    rw [ih (fun w hw => hz w (by simp [hw]))]

/-- C3 counterexample: the source strips ALL trailing dots (`rstrip(".")`),
not a single one.  The name `host.example.com..` is accepted by the schema's
`_validate_dns_name`, is accepted against zone `example.com` by the code's
check, but is rejected by the claim's single-dot-stripping algorithm. -/
theorem zone_check_double_trailing_dot_cex :
    _validate_dns_name ("host.example.com..".toList) = true ∧
      dns_name_in_zone ("host.example.com..".toList) [("example.com".toList)] = true ∧
      dns_name_in_zone_spec ("host.example.com..".toList) [("example.com".toList)] = false :=
  ⟨by decide, by decide, by decide⟩

/-- C3 (amended): the membership check strips ALL trailing dots from the name
and from each zone name (Python `rstrip(".")`); on names and zones with at most
one trailing dot this coincides with the claim's single-dot-stripping
algorithm, and the claim's examples hold: `notexample.com` is rejected against
zone `example.com` while `host.example.com` is accepted. -/
theorem zone_check_rstrip_all_dots :
    (∀ name zones, ¬ ['.', '.'] <:+ name → (∀ z ∈ zones, ¬ ['.', '.'] <:+ z) →
        dns_name_in_zone name zones = dns_name_in_zone_spec name zones) ∧
      dns_name_in_zone ("notexample.com".toList) [("example.com".toList)] = false ∧
      dns_name_in_zone ("host.example.com".toList) [("example.com".toList)] = true :=
  ⟨dns_name_in_zone_eq_spec, by decide, by decide⟩

/-- Witness for C3's amended theorem at `host.example.com.` vs `example.com`. -/
theorem zone_check_rstrip_all_dots_w :
    dns_name_in_zone ("host.example.com.".toList) [("example.com".toList)]
      = dns_name_in_zone_spec ("host.example.com.".toList) [("example.com".toList)] :=
  zone_check_rstrip_all_dots.1 _ _ (by decide) (by decide)

/-- C1 is violated by the code (code bug): on the IPv6 /128 subnet holding the
highest address, with its single usable address occupied, no free key exists in
the usable range, yet the route does not return Exhausted: the candidate is
incremented to 2^128, whose hex rendering is 33 characters long and therefore
compares lexicographically BELOW the 32-character end bound, so the exhaustion
check `candidate_hex > end_hex` fails and the route "allocates" the
out-of-address-space key 2^128. -/
theorem allocate_top_ipv6_full_not_exhausted :
    allocate_next_ip exampleTopV6 [] none [_int_to_hex (2 ^ 128 - 1)]
        = .ok (_int_to_hex (2 ^ 128)) ∧
      start_int exampleTopV6 = 2 ^ 128 - 1 ∧
      end_int exampleTopV6 = 2 ^ 128 - 1 ∧
      _hex_to_int (_int_to_hex (2 ^ 128)) = 2 ^ 128 :=
  ⟨by decide, by decide, by decide, by decide⟩

/-- C2 is violated by models.py (code bug): for an IPv6 /127 subnet the claim
(and the allocation route in subnets.py, whose threshold is `max_prefix - 1`)
makes the usable range the entire 2-address range, but models.py's derived
properties use threshold `128 if is_ipv6 else 31` — 128 instead of 127 — and
report 0 usable hosts with an inverted first/last pair, disagreeing with the
route. -/
theorem usable_range_model_route_disagree_slash127 :
    Subnet.usable_hosts exampleV6Slash127 = 0 ∧
      Subnet.total_hosts exampleV6Slash127 = 2 ∧
      Subnet.first_usable_int exampleV6Slash127
        = Subnet.network_int exampleV6Slash127 + 1 ∧
      Subnet.last_usable_int exampleV6Slash127 = Subnet.network_int exampleV6Slash127 ∧
      start_int exampleV6Slash127 = Subnet.network_int exampleV6Slash127 ∧
      end_int exampleV6Slash127 = Subnet.network_int exampleV6Slash127 + 1 :=
  ⟨by decide, by decide, by decide, by decide, by decide, by decide⟩

/-- C4 counterexample: the allocation route performs a SINGLE
compute-and-persist attempt with no retry loop.  With subnet 10.0.0.0/30, an
occupied-keys snapshot read before a rival's commit, and a store in which the
rival has meanwhile inserted 10.0.0.1, the route surfaces the uniqueness
conflict after that one attempt — even though a recompute against the fresh
store would succeed with 10.0.0.2, as the second conjunct shows. -/
theorem allocate_single_attempt_conflict_cex :
    allocate_and_persist exampleV4Slash30 [] none [] [_int_to_hex 0x0a000001]
        = .conflict ∧
      allocate_next_ip exampleV4Slash30 [] none [_int_to_hex 0x0a000001]
        = .ok (_int_to_hex 0x0a000002) :=
  ⟨by decide, by decide⟩

/-- C4 (amended): at most one allocation per key is enforced by the storage
uniqueness constraint on `IPAddress.address`, but the orchestration performs a
single attempt: when the computed candidate is free it is stored, and when a
concurrent writer has already stored it the uniqueness violation is surfaced
directly as a conflict error — there is no retry of the
recompute-and-persist sequence. -/
theorem allocate_persist_unique_no_retry
    (subnet : Subnet) (zones : List (List Char)) (dns_name : Option (List Char))
    (snapshot store : List (List Char)) (candidate : List Char)
    (h : allocate_next_ip subnet zones dns_name snapshot = .ok candidate) :
    (candidate ∉ store →
        allocate_and_persist subnet zones dns_name snapshot store
          = .ok candidate (store ++ [candidate])) ∧
      (candidate ∈ store →
        allocate_and_persist subnet zones dns_name snapshot store = .conflict) := by
  unfold allocate_and_persist
  rw [h]
  unfold insert_unique
  constructor
  · intro hc
    simp [hc]
  · intro hc
    simp [hc]

/-- Witness for C4's amended theorem: a free candidate is stored; a stolen
candidate surfaces a conflict on the single attempt. -/
theorem allocate_persist_unique_no_retry_w :
    (allocate_and_persist exampleV4Slash30 [] none [] []
        = .ok (_int_to_hex 0x0a000001) ([] ++ [_int_to_hex 0x0a000001])) ∧
      allocate_and_persist exampleV4Slash30 [] none [] [_int_to_hex 0x0a000001]
        = .conflict :=
  ⟨(allocate_persist_unique_no_retry exampleV4Slash30 [] none [] []
      (_int_to_hex 0x0a000001) (by decide)).1 (by decide),
    (allocate_persist_unique_no_retry exampleV4Slash30 [] none []
      [_int_to_hex 0x0a000001] (_int_to_hex 0x0a000001) (by decide)).2 (by decide)⟩

/-- C9: deleting a DNS zone removes only that zone row; the IP-address table
(and so every existing record's fields, dns_name included) and the subnet
table are untouched. -/
theorem delete_zone_preserves_ip_addresses (st : DBState) (zone_id : Nat)
    (st' : DBState) (h : delete_dns_zone st zone_id = some st') :
    st'.ip_addresses = st.ip_addresses ∧ st'.subnets = st.subnets := by
  unfold delete_dns_zone at h
  split at h
  · exact Option.noConfusion h
  · injection h with h1
    subst h1
    exact ⟨rfl, rfl⟩

/-- Witness for C9: deleting zone `example.com` from the example state leaves
the IP record (whose dns_name lies in that zone) untouched. -/
theorem delete_zone_preserves_ip_addresses_w :
    delete_dns_zone exampleState 1
        = some ⟨[exampleV4Slash30], [exampleIP], []⟩ ∧
      (⟨[exampleV4Slash30], [exampleIP], []⟩ : DBState).ip_addresses
        = exampleState.ip_addresses :=
  ⟨by decide, (delete_zone_preserves_ip_addresses exampleState 1 _ (by decide)).1⟩

/-- C10: the IP-address update is a full replacement of the two mutable
fields: after a successful update the record's dns_name and description equal
exactly the body's values (an omitted field is None, not preserved), while
address, is_ipv6, subnet_id and id are unchanged, and every other table and
row is unchanged. -/
theorem update_ip_address_full_replacement
    (st : DBState) (ip_address_id : Nat) (body_dns_name body_description : Option (List Char))
    (ip : IPAddress) (st' : DBState) (up : IPAddress)
    (hfind : st.ip_addresses.find? (fun j => j.id == ip_address_id) = some ip)
    (h : update_ip_address st ip_address_id body_dns_name body_description = .ok st' up) :
    up.dns_name = body_dns_name ∧ up.description = body_description ∧
      up.address = ip.address ∧ up.is_ipv6 = ip.is_ipv6 ∧
      up.subnet_id = ip.subnet_id ∧ up.id = ip.id ∧
      st'.subnets = st.subnets ∧ st'.zones = st.zones ∧
      st'.ip_addresses
        = st.ip_addresses.map (fun j => if j.id == ip_address_id then up else j) := by
  unfold update_ip_address at h
  rw [hfind] at h
  split at h
  · exact UpdateResult.noConfusion h
  · rename_i ip2 heq
    injection heq with heq'
    subst heq'
    split at h
    · rename_i d
      simp only [] at h
      split at h
      · exact UpdateResult.noConfusion h
      · injection h with h1 h2
        subst h1
        subst h2
        exact ⟨rfl, rfl, rfl, rfl, rfl, rfl, rfl, rfl, rfl⟩
    · rw [if_neg (by decide)] at h
      injection h with h1 h2
      subst h1
      subst h2
      exact ⟨rfl, rfl, rfl, rfl, rfl, rfl, rfl, rfl, rfl⟩

/-- Witness for C10: updating the example record with an omitted dns_name and
a new description clears dns_name and replaces description. -/
theorem update_ip_address_full_replacement_w :
    exampleUpdatedIP.dns_name = none ∧
      exampleUpdatedIP.description = some ("newdesc".toList) ∧
      exampleUpdatedIP.address = exampleIP.address := by
  have h := update_ip_address_full_replacement exampleState 1 none
    (some ("newdesc".toList)) exampleIP
    ⟨[exampleV4Slash30], [exampleUpdatedIP], [exampleZone]⟩ exampleUpdatedIP
    (by decide) (by decide)
  exact ⟨h.1, h.2.1, h.2.2.1⟩

/-- C6: direct registration of an IP address (given an existing subnet, a
schema-valid address literal, no dns_name, and no duplicate key) succeeds and
appends exactly one row iff the address lies within the subnet's FULL network
range — same family and network_address ≤ value ≤ broadcast_address, so the
network and broadcast positions are accepted — and otherwise fails with the
OutOfRange error (HTTP 400) returning the stored state unchanged. -/
theorem create_ip_address_range_check
    (st : DBState) (new_id : Nat) (addr : List Char) (sid : Nat)
    (desc : Option (List Char)) (subnet : Subnet) (fam : Bool) (v : Nat)
    (hsub : st.subnets.find? (fun s => s.id == sid) = some subnet)
    (hparse : ip_address addr = some (fam, v))
    (hdup : st.ip_addresses.any (fun ip => ip.address == _int_to_hex v) = false) :
    (subnet.network_contains fam v = true →
        create_ip_address st new_id addr sid none desc
          = ({ st with
                ip_addresses := st.ip_addresses
                  ++ [⟨new_id, _int_to_hex v, fam, none, desc, subnet.id⟩] },
              .ok ⟨new_id, _int_to_hex v, fam, none, desc, subnet.id⟩)) ∧
      (subnet.network_contains fam v = false →
        create_ip_address st new_id addr sid none desc = (st, .outOfRange)) ∧
      subnet.network_contains fam v
        = ((fam == subnet.is_ipv6) && decide (subnet.network_int ≤ v)
            && decide (v ≤ subnet.broadcast_int)) := by
  refine ⟨?_, ?_, rfl⟩
  · intro hc
    simp only [create_ip_address, hsub, hparse, hdup, hc]
    simp
  · intro hc
    simp only [create_ip_address, hsub, hparse, hdup, hc]
    simp

/-- Witness for C6: registering the NETWORK address 10.0.0.0 of subnet
10.0.0.0/30 succeeds (the full range, not the usable range, is the bound). -/
theorem create_ip_address_range_check_w :
    create_ip_address exampleState 2 ("10.0.0.0".toList) 3 none none
      = ({ exampleState with
            ip_addresses := exampleState.ip_addresses
              ++ [⟨2, _int_to_hex 0x0a000000, false, none, none, 3⟩] },
          .ok ⟨2, _int_to_hex 0x0a000000, false, none, none, 3⟩) :=
  (create_ip_address_range_check exampleState 2 ("10.0.0.0".toList) 3 none
    exampleV4Slash30 false 0x0a000000 (by decide) (by decide) (by decide)).1 (by decide)

theorem char_eq_of_toNat_eq {a b : Char} (h : a.toNat = b.toNat) : a = b := by
  apply Char.ext
  apply UInt32.ext
  exact h

theorem splitOnChar_ne_nil (sep : Char) (s : List Char) : splitOnChar sep s ≠ [] := by
  induction s with
  | nil => simp [splitOnChar]
  | cons c rest ih =>
    rw [splitOnChar]
    cases hsp : splitOnChar sep rest with
    | nil => simp
    | cons g gs => by_cases hc : c = sep <;> simp [hc]

theorem joinSep_splitOnChar (sep : Char) (s : List Char) :
    joinSep sep (splitOnChar sep s) = s := by
  induction s with
  | nil => rfl
  | cons c rest ih =>
    rw [splitOnChar]
    cases hsp : splitOnChar sep rest with
    | nil => exact absurd hsp (splitOnChar_ne_nil sep rest)
    | cons g gs =>
      rw [hsp] at ih
      by_cases hc : c = sep
      · subst hc
        simp only [if_pos rfl, joinSep]
        simpa using ih
      · simp only [if_neg hc]
        cases gs with
        | nil =>
          simp only [joinSep] at ih ⊢
          simpa using ih
        | cons g2 gs2 =>
          simp only [joinSep] at ih ⊢
          simpa using ih

theorem splitOnChar_of_not_mem {sep : Char} {s : List Char} (h : sep ∉ s) :
    splitOnChar sep s = [s] := by
  induction s with
  | nil => rfl
  | cons c rest ih =>
    have hc : c ≠ sep := fun he => h (by simp [he])
    have hrest : sep ∉ rest := fun hm => h (by simp [hm])
    rw [splitOnChar, ih hrest]
    simp [hc]

theorem splitOnChar_append_sep {sep : Char} {p : List Char} (h : sep ∉ p) (t : List Char) :
    splitOnChar sep (p ++ sep :: t) = p :: splitOnChar sep t := by
  induction p with
  | nil =>
    simp only [List.nil_append]
    rw [splitOnChar]
    cases hsp : splitOnChar sep t with
    | nil => exact absurd hsp (splitOnChar_ne_nil sep t)
    | cons g gs => simp
  | cons c p' ih =>
    have hc : c ≠ sep := fun he => h (by simp [he])
    have hp' : sep ∉ p' := fun hm => h (by simp [hm])
    simp only [List.cons_append]
    rw [splitOnChar, ih hp']
    simp [hc]

theorem splitOnChar_joinSep {sep : Char} {ps : List (List Char)} (hne : ps ≠ [])
    (h : ∀ p ∈ ps, sep ∉ p) :
    splitOnChar sep (joinSep sep ps) = ps := by
  induction ps with
  | nil => exact absurd rfl hne
  | cons p qs ih =>
    cases qs with
    | nil =>
      simp only [joinSep]
      exact splitOnChar_of_not_mem (h p (by simp))
    | cons q t =>
      simp only [joinSep]
      rw [splitOnChar_append_sep (h p (by simp))]
      rw [ih (by simp) (fun w hw => h w (by simp [hw]))]

theorem mem_joinSep {sep c : Char} {ps : List (List Char)} (h : c ∈ joinSep sep ps) :
    c = sep ∨ ∃ p ∈ ps, c ∈ p := by
  induction ps with
  | nil => simp [joinSep] at h
  | cons p qs ih =>
    cases qs with
    | nil =>
      simp only [joinSep] at h
      exact Or.inr ⟨p, by simp, h⟩
    | cons q t =>
      simp only [joinSep, List.mem_append, List.mem_cons] at h
      rcases h with hp | hc | hj
      · exact Or.inr ⟨p, by simp, hp⟩
      · exact Or.inl hc
      · rcases ih hj with hs | ⟨w, hw, hcw⟩
        · exact Or.inl hs
        · exact Or.inr ⟨w, by simp [List.mem_cons] at hw ⊢; tauto, hcw⟩

theorem joinSep_ne_nil_of_two {sep : Char} {ps : List (List Char)}
    (h : 2 ≤ ps.length) : joinSep sep ps ≠ [] := by
  match ps, h with
  | x :: y :: t, _ =>
    simp only [joinSep]
    intro he
    exact absurd (congrArg List.length he) (by simp)

theorem decRepAux_fuel_irrel {f₁ f₂ n : Nat} (h₁ : n < f₁) (h₂ : n < f₂) :
    decRepAux f₁ n = decRepAux f₂ n := by
  induction n using Nat.strongRecOn generalizing f₁ f₂ with
  | _ n ih =>
    cases f₁ with
    | zero => omega
    | succ g₁ =>
      cases f₂ with
      | zero => omega
      | succ g₂ =>
        rw [decRepAux, decRepAux]
        by_cases hn : n < 10
        · simp [hn]
        · simp only [hn, if_false]
          have hdiv : n / 10 < n := Nat.div_lt_self (by omega) (by omega)
          have hrec : decRepAux g₁ (n / 10) = decRepAux g₂ (n / 10) :=
            ih (n / 10) hdiv (by omega) (by omega)
          rw [hrec]

theorem decRep_eq (n : Nat) :
    decRep n = if n < 10 then [hexChar n] else decRep (n / 10) ++ [hexChar (n % 10)] := by
  unfold decRep
  rw [decRepAux]
  by_cases hn : n < 10
  · simp [hn]
  · simp only [hn, if_false]
    have hdiv : n / 10 < n := Nat.div_lt_self (by omega) (by omega)
    rw [decRepAux_fuel_irrel (by omega) (Nat.lt_succ_self _)]

theorem decRep_small {n : Nat} (h : n < 10) : decRep n = [hexChar n] := by
  rw [decRep_eq]
  simp [h]

theorem decRep_ne_nil (n : Nat) : decRep n ≠ [] := by
  rw [decRep_eq]
  split <;> simp

theorem decVal_append (p : List Char) (c : Char) :
    decVal (p ++ [c]) = 10 * decVal p + decDigitVal c := by
  unfold decVal
  rw [List.foldl_append]
  rfl

theorem decDigitVal_hexChar {d : Nat} (hd : d < 10) : decDigitVal (hexChar d) = d := by
  interval_cases d <;> decide

theorem isDecDigit_hexChar {d : Nat} (hd : d < 10) : isDecDigit (hexChar d) = true := by
  interval_cases d <;> decide

theorem hexChar_toNat_lt10 {k : Nat} (h : k < 10) : (hexChar k).toNat = 48 + k := by
  interval_cases k <;> decide

theorem decDigit_toNat {c : Char} (h : isDecDigit c = true) :
    48 ≤ c.toNat ∧ c.toNat ≤ 57 := by
  simp only [isDecDigit, Bool.and_eq_true, decide_eq_true_eq, Char.le_def] at h
  exact h

theorem hexChar_decDigitVal {c : Char} (h : isDecDigit c = true) :
    hexChar (decDigitVal c) = c := by
  obtain ⟨h1, h2⟩ := decDigit_toNat h
  have h0 : Char.toNat '0' = 48 := rfl
  have h10 : decDigitVal c < 10 := by unfold decDigitVal; omega
  apply char_eq_of_toNat_eq
  rw [hexChar_toNat_lt10 h10]
  unfold decDigitVal
  omega

theorem decVal_decRep (n : Nat) : decVal (decRep n) = n := by
  induction n using Nat.strongRecOn with
  | _ n ih =>
    rw [decRep_eq]
    by_cases h : n < 10
    · simp only [h, if_true]
      show 10 * 0 + decDigitVal (hexChar n) = n
      rw [decDigitVal_hexChar h]
      omega
    · simp only [h, if_false]
      rw [decVal_append, ih (n / 10) (Nat.div_lt_self (by omega) (by omega)),
        decDigitVal_hexChar (Nat.mod_lt _ (by omega))]
      omega

theorem decRep_digits {n : Nat} : ∀ c ∈ decRep n, isDecDigit c = true := by
  induction n using Nat.strongRecOn with
  | _ n ih =>
    rw [decRep_eq]
    by_cases h : n < 10
    · simp only [h, if_true, List.mem_singleton]
      rintro c rfl
      exact isDecDigit_hexChar h
    · simp only [h, if_false, List.mem_append, List.mem_singleton]
      rintro c (hc | rfl)
      · exact ih (n / 10) (Nat.div_lt_self (by omega) (by omega)) c hc
      · exact isDecDigit_hexChar (Nat.mod_lt _ (by omega))

theorem headD_append {p q : List Char} (d : Char) (h : p ≠ []) :
    (p ++ q).headD d = p.headD d := by
  cases p with
  | nil => exact absurd rfl h
  | cons a t => rfl

theorem decRep_headD {n : Nat} (h : 0 < n) : (decRep n).headD 'x' ≠ '0' := by
  induction n using Nat.strongRecOn with
  | _ n ih =>
    rw [decRep_eq]
    by_cases hn : n < 10
    · simp only [hn, if_true]
      show hexChar n ≠ '0'
      interval_cases n <;> decide
    · simp only [hn, if_false]
      rw [headD_append _ (decRep_ne_nil _)]
      exact ih (n / 10) (Nat.div_lt_self (by omega) (by omega)) (by omega)

theorem decRep_length_le {n k : Nat} (hk : 1 ≤ k) (h : n < 10 ^ k) :
    (decRep n).length ≤ k := by
  induction k generalizing n with
  | zero => omega
  | succ k ih =>
    rw [decRep_eq]
    split
    · simp
    · rename_i hn
      have hk1 : 1 ≤ k := by
        by_contra hk0
        have hz : k = 0 := by omega
        subst hz
        simp at h
        omega
      have hq : n / 10 < 10 ^ k := by
        have h10 : (10 : Nat) ^ (k + 1) = 10 * 10 ^ k := by ring
        exact Nat.div_lt_of_lt_mul (h10 ▸ h)
      have := ih hk1 hq
      simp only [List.length_append, List.length_cons, List.length_nil]
      omega

theorem foldl_dec_ge (q : List Char) (a : Nat) :
    a ≤ q.foldl (fun acc c => 10 * acc + decDigitVal c) a := by
  induction q generalizing a with
  | nil => exact Nat.le_refl a
  | cons c t ih =>
    simp only [List.foldl_cons]
    calc a ≤ 10 * a + decDigitVal c := by omega
    _ ≤ _ := ih _

theorem decVal_pos {d : Char} {q : List Char} (hd : isDecDigit d = true)
    (hz : d ≠ '0') : 0 < decVal (d :: q) := by
  obtain ⟨h1, h2⟩ := decDigit_toNat hd
  have h0 : Char.toNat '0' = 48 := rfl
  have hdv : 0 < decDigitVal d := by
    unfold decDigitVal
    rcases Nat.lt_or_ge 48 d.toNat with h | h
    · omega
    · exfalso
      exact hz (char_eq_of_toNat_eq (by change d.toNat = Char.toNat '0'; omega))
  unfold decVal
  simp only [List.foldl_cons]
  calc 0 < 10 * 0 + decDigitVal d := by omega
  _ ≤ _ := foldl_dec_ge q _

theorem decRep_canonical {p : List Char} (hne : p ≠ [])
    (hd : ∀ c ∈ p, isDecDigit c = true)
    (hz : p = ['0'] ∨ p.headD 'x' ≠ '0') :
    decRep (decVal p) = p := by
  induction p using List.reverseRecOn with
  | nil => exact absurd rfl hne
  | append_singleton q c ih =>
    rw [decVal_append]
    have hc : isDecDigit c = true := hd c (by simp)
    have hc10 : decDigitVal c < 10 := by
      obtain ⟨h1, h2⟩ := decDigit_toNat hc
      have h0 : Char.toNat '0' = 48 := rfl
      unfold decDigitVal
      omega
    cases hq : q with
    | nil =>
      subst hq
      show decRep (10 * decVal [] + decDigitVal c) = [c]
      have : decVal [] = 0 := rfl
      rw [this]
      simp only [Nat.mul_zero, Nat.zero_add]
      rw [decRep_small hc10, hexChar_decDigitVal hc]
    | cons d q' =>
      subst hq
      have hdd : isDecDigit d = true := hd d (by simp)
      have hdz : d ≠ '0' := by
        rcases hz with hz | hz
        · exact absurd (congrArg List.length hz) (by simp)
        · intro he
          exact hz (by simp [he])
      have hpos : 0 < decVal (d :: q') := decVal_pos hdd hdz
      have hbig : ¬ (10 * decVal (d :: q') + decDigitVal c < 10) := by omega
      rw [decRep_eq]
      simp only [hbig, if_false]
      have hdiv : (10 * decVal (d :: q') + decDigitVal c) / 10 = decVal (d :: q') := by
        omega
      have hmod : (10 * decVal (d :: q') + decDigitVal c) % 10 = decDigitVal c := by
        omega
      rw [hdiv, hmod, hexChar_decDigitVal hc]
      rw [ih (by simp) (fun w hw => hd w (by simp [List.mem_append] at hw ⊢; tauto))
        (Or.inr (by simpa using hdz))]

theorem parse_octet_decRep {v : Nat} (h : v ≤ 255) : _parse_octet (decRep v) = some v := by
  unfold _parse_octet
  have hne : (decRep v).isEmpty = false := by
    cases hd : decRep v with
    | nil => exact absurd hd (decRep_ne_nil v)
    | cons a t => rfl
  have hall : (decRep v).all isDecDigit = true := by
    rw [List.all_eq_true]
    exact decRep_digits
  have hlen : ¬ (decRep v).length > 3 := by
    have hb : (decRep v).length ≤ 3 := decRep_length_le (by omega) (by omega)
    omega
  have hlead : (!(decRep v == ['0']) && ((decRep v).headD 'x' == '0')) = false := by
    by_cases hv : v = 0
    · subst hv
      rw [decRep_small (by omega)]
      rfl
    · have hh : (decRep v).headD 'x' ≠ '0' := decRep_headD (by omega)
      simp only [Bool.and_eq_false_iff]
      right
      simpa using hh
  rw [hne, hall, hlead]
  simp only [decide_eq_true_eq, hlen, if_false, Bool.false_eq_true, if_false]
  rw [decVal_decRep]
  simp [Nat.not_lt.mpr, h]

theorem parse_octet_some {p : List Char} {v : Nat} (h : _parse_octet p = some v) :
    decRep v = p ∧ v ≤ 255 := by
  unfold _parse_octet at h
  split_ifs at h with h1 h2 h3 h4
  simp only [gt_iff_lt] at h
  split_ifs at h with h5
  injection h with hv
  subst hv
  have hne : p ≠ [] := by
    cases p with
    | nil => simp at h1
    | cons a t => simp
  have hall : ∀ c ∈ p, isDecDigit c = true := by
    have h2' : p.all isDecDigit = true := by simpa using h2
    exact fun c hc => (List.all_eq_true.mp h2') c hc
  have hz : p = ['0'] ∨ p.headD 'x' ≠ '0' := by
    by_cases hp0 : p = ['0']
    · exact Or.inl hp0
    · right
      intro hhd
      apply h4
      have hb1 : (p == ['0']) = false := by simp [hp0]
      have hb2 : (p.headD 'x' == '0') = true := by rw [hhd]; rfl
      rw [hb1, hb2]
      rfl
  have hle : decVal p ≤ 255 := by
    have := h5
    simp only [decide_eq_true_eq, Nat.not_lt] at this
    exact this
  exact ⟨decRep_canonical hne hall hz, hle⟩

theorem isHexDigitPy_hexChar {d : Nat} (hd : d < 16) : isHexDigitPy (hexChar d) = true := by
  interval_cases d <;> decide

theorem hexRep_digits {n : Nat} : ∀ c ∈ hexRep n, isHexDigitPy c = true := by
  induction n using Nat.strongRecOn with
  | _ n ih =>
    rw [hexRep_eq]
    by_cases h : n < 16
    · simp only [h, if_true, List.mem_singleton]
      rintro c rfl
      exact isHexDigitPy_hexChar h
    · simp only [h, if_false, List.mem_append, List.mem_singleton]
      rintro c (hc | rfl)
      · exact ih (n / 16) (Nat.div_lt_self (by omega) (by omega)) c hc
      · exact isHexDigitPy_hexChar (Nat.mod_lt _ (by omega))

theorem hexVal_append (p : List Char) (c : Char) :
    _hex_to_int (p ++ [c]) = 16 * _hex_to_int p + hexDigitVal c := by
  unfold _hex_to_int
  rw [List.foldl_append]
  rfl

theorem hexVal_hexRep (n : Nat) : _hex_to_int (hexRep n) = n := by
  induction n using Nat.strongRecOn with
  | _ n ih =>
    rw [hexRep_eq]
    by_cases h : n < 16
    · simp only [h, if_true]
      show 16 * 0 + hexDigitVal (hexChar n) = n
      rw [hexDigitVal_hexChar h]
      omega
    · simp only [h, if_false]
      rw [hexVal_append, ih (n / 16) (Nat.div_lt_self (by omega) (by omega)),
        hexDigitVal_hexChar (Nat.mod_lt _ (by omega))]
      omega

theorem hexRep_eq_zero_iff {n : Nat} : hexRep n = ['0'] ↔ n = 0 := by
  constructor
  · intro h
    have := hexVal_hexRep n
    rw [h] at this
    simpa using this.symm
  · rintro rfl
    rw [hexRep_eq]
    rfl

theorem parse_hextet_hexRep {v : Nat} (h : v < 65536) : _parse_hextet (hexRep v) = some v := by
  unfold _parse_hextet
  have hall : (hexRep v).all isHexDigitPy = true := List.all_eq_true.mpr hexRep_digits
  have hlen : ¬ (hexRep v).length > 4 := by
    have h164 : (65536 : Nat) = 16 ^ 4 := by norm_num
    have hb : (hexRep v).length ≤ 4 := hexRep_length_le (by omega) (by omega)
    omega
  have hne : (hexRep v).isEmpty = false := by
    cases hd : hexRep v with
    | nil => exact absurd hd (hexRep_ne_nil v)
    | cons a t => rfl
  rw [hall, hne]
  simp only [Bool.not_true, Bool.false_eq_true, if_false, decide_eq_true_eq, hlen]
  rw [hexVal_hexRep]

theorem hexDigitVal_lt16 (c : Char) : hexDigitVal c < 16 := by
  unfold hexDigitVal
  have e0 : Char.toNat '0' = 48 := rfl
  have ea : Char.toNat 'a' = 97 := rfl
  have eA : Char.toNat 'A' = 65 := rfl
  split_ifs with h1 h2 h3
  · obtain ⟨x1, x2⟩ := h1
    have b1 : 48 ≤ c.toNat := by rw [Char.le_def] at x1; exact x1
    have b2 : c.toNat ≤ 57 := by rw [Char.le_def] at x2; exact x2
    omega
  · obtain ⟨x1, x2⟩ := h2
    have b1 : 97 ≤ c.toNat := by rw [Char.le_def] at x1; exact x1
    have b2 : c.toNat ≤ 102 := by rw [Char.le_def] at x2; exact x2
    omega
  · obtain ⟨x1, x2⟩ := h3
    have b1 : 65 ≤ c.toNat := by rw [Char.le_def] at x1; exact x1
    have b2 : c.toNat ≤ 70 := by rw [Char.le_def] at x2; exact x2
    omega
  · omega

theorem hexVal_bound_aux (p : List Char) (a : Nat) :
    p.foldl (fun acc c => 16 * acc + hexDigitVal c) a < (a + 1) * 16 ^ p.length := by
  induction p generalizing a with
  | nil => simp only [List.foldl_nil, List.length_nil, pow_zero, mul_one]; omega
  | cons c t ih =>
    simp only [List.foldl_cons, List.length_cons]
    calc t.foldl (fun acc c => 16 * acc + hexDigitVal c) (16 * a + hexDigitVal c)
        < (16 * a + hexDigitVal c + 1) * 16 ^ t.length := ih _
    _ ≤ (a + 1) * 16 ^ (t.length + 1) := by
        have hd := hexDigitVal_lt16 c
        have : 16 * a + hexDigitVal c + 1 ≤ 16 * (a + 1) := by omega
        calc (16 * a + hexDigitVal c + 1) * 16 ^ t.length
            ≤ (16 * (a + 1)) * 16 ^ t.length := Nat.mul_le_mul_right _ this
        _ = (a + 1) * 16 ^ (t.length + 1) := by ring

theorem hexVal_lt (p : List Char) : _hex_to_int p < 16 ^ p.length := by
  have := hexVal_bound_aux p 0
  simpa [_hex_to_int] using this

theorem parse_hextet_lt {p : List Char} {v : Nat} (h : _parse_hextet p = some v) :
    v < 65536 := by
  unfold _parse_hextet at h
  split_ifs at h with h1 h2 h3
  injection h with hv
  subst hv
  have hlen : p.length ≤ 4 := by
    simp only [decide_eq_true_eq] at h2
    omega
  calc _hex_to_int p < 16 ^ p.length := hexVal_lt p
  _ ≤ 16 ^ 4 := Nat.pow_le_pow_right (by omega) hlen
  _ = 65536 := by norm_num

theorem hexDigit_ne_colon {c : Char} (h : isHexDigitPy c = true) : c ≠ ':' := by
  intro he
  rw [he] at h
  exact absurd h (by decide)

theorem hexDigit_ne_dot {c : Char} (h : isHexDigitPy c = true) : c ≠ '.' := by
  intro he
  rw [he] at h
  exact absurd h (by decide)

theorem hexDigit_ne_slash {c : Char} (h : isHexDigitPy c = true) : c ≠ '/' := by
  intro he
  rw [he] at h
  exact absurd h (by decide)

theorem decDigit_ne_dot {c : Char} (h : isDecDigit c = true) : c ≠ '.' := by
  intro he
  rw [he] at h
  exact absurd h (by decide)

theorem decDigit_ne_colon {c : Char} (h : isDecDigit c = true) : c ≠ ':' := by
  intro he
  rw [he] at h
  exact absurd h (by decide)

theorem decDigit_ne_slash {c : Char} (h : isDecDigit c = true) : c ≠ '/' := by
  intro he
  rw [he] at h
  exact absurd h (by decide)

theorem parse_octet_digits {p : List Char} {v : Nat} (h : _parse_octet p = some v) :
    ∀ c ∈ p, isDecDigit c = true := by
  intro c hc
  have hdr := (parse_octet_some h).1
  rw [← hdr] at hc
  exact decRep_digits c hc

theorem octet_extract {a b c d : Nat} (ha : a ≤ 255) (hb : b ≤ 255) (hc : c ≤ 255)
    (hd : d ≤ 255) :
    (a * 2 ^ 24 + b * 2 ^ 16 + c * 2 ^ 8 + d) / 2 ^ 24 % 256 = a ∧
      (a * 2 ^ 24 + b * 2 ^ 16 + c * 2 ^ 8 + d) / 2 ^ 16 % 256 = b ∧
      (a * 2 ^ 24 + b * 2 ^ 16 + c * 2 ^ 8 + d) / 2 ^ 8 % 256 = c ∧
      (a * 2 ^ 24 + b * 2 ^ 16 + c * 2 ^ 8 + d) % 256 = d ∧
      a * 2 ^ 24 + b * 2 ^ 16 + c * 2 ^ 8 + d < 2 ^ 32 := by
  have e24 : (2 : Nat) ^ 24 = 16777216 := by norm_num
  have e16 : (2 : Nat) ^ 16 = 65536 := by norm_num
  have e8 : (2 : Nat) ^ 8 = 256 := by norm_num
  have e32 : (2 : Nat) ^ 32 = 4294967296 := by norm_num
  rw [e24, e16, e8, e32]
  omega

theorem ipv4_round_trip_string {s : List Char} {v : Nat}
    (h : ipv4_from_string s = some v) : ipv4_to_string v = s := by
  unfold ipv4_from_string at h
  split at h
  case h_2 => exact Option.noConfusion h
  rename_i a b c d heq
  split at h
  case h_2 => exact Option.noConfusion h
  rename_i va vb vc vd ha hb hc hd
  injection h with hv
  subst hv
  obtain ⟨hra, hla⟩ := parse_octet_some ha
  obtain ⟨hrb, hlb⟩ := parse_octet_some hb
  obtain ⟨hrc, hlc⟩ := parse_octet_some hc
  obtain ⟨hrd, hld⟩ := parse_octet_some hd
  obtain ⟨e1, e2, e3, e4, e5⟩ := octet_extract hla hlb hlc hld
  unfold ipv4_to_string
  rw [e1, e2, e3, e4, hra, hrb, hrc, hrd]
  have := joinSep_splitOnChar '.' s
  rw [heq] at this
  exact this

theorem ipv4_round_trip_value {v : Nat} (h : v < 2 ^ 32) :
    ipv4_from_string (ipv4_to_string v) = some v := by
  unfold ipv4_to_string ipv4_from_string
  have hdig : ∀ w : Nat, ∀ c ∈ decRep w, c ≠ '.' :=
    fun w c hc => decDigit_ne_dot (decRep_digits c hc)
  have hsplit :
      splitOnChar '.'
          (joinSep '.'
            [decRep (v / 2 ^ 24 % 256), decRep (v / 2 ^ 16 % 256),
              decRep (v / 2 ^ 8 % 256), decRep (v % 256)])
        = [decRep (v / 2 ^ 24 % 256), decRep (v / 2 ^ 16 % 256),
            decRep (v / 2 ^ 8 % 256), decRep (v % 256)] := by
    apply splitOnChar_joinSep (by simp)
    intro p hp
    simp only [List.mem_cons, List.not_mem_nil, or_false] at hp
    rcases hp with rfl | rfl | rfl | rfl <;>
      exact fun hm => hdig _ '.' hm rfl
  rw [hsplit]
  have p1 : _parse_octet (decRep (v / 2 ^ 24 % 256)) = some (v / 2 ^ 24 % 256) :=
    parse_octet_decRep (by omega)
  have p2 : _parse_octet (decRep (v / 2 ^ 16 % 256)) = some (v / 2 ^ 16 % 256) :=
    parse_octet_decRep (by omega)
  have p3 : _parse_octet (decRep (v / 2 ^ 8 % 256)) = some (v / 2 ^ 8 % 256) :=
    parse_octet_decRep (by omega)
  have p4 : _parse_octet (decRep (v % 256)) = some (v % 256) :=
    parse_octet_decRep (by omega)
  dsimp only
  rw [p1, p2, p3, p4]
  dsimp only
  congr 1
  omega

theorem ipv4_parse_bound_chars {s : List Char} {v : Nat}
    (h : ipv4_from_string s = some v) :
    v < 2 ^ 32 ∧ ':' ∉ s ∧ '/' ∉ s := by
  unfold ipv4_from_string at h
  split at h
  case h_2 => exact Option.noConfusion h
  rename_i a b c d heq
  split at h
  case h_2 => exact Option.noConfusion h
  rename_i va vb vc vd ha hb hc hd
  injection h with hv
  subst hv
  have hs : joinSep '.' [a, b, c, d] = s := by
    have := joinSep_splitOnChar '.' s
    rw [heq] at this
    exact this
  have hbound :=
    (octet_extract (parse_octet_some ha).2 (parse_octet_some hb).2
      (parse_octet_some hc).2 (parse_octet_some hd).2).2.2.2.2
  refine ⟨hbound, ?_, ?_⟩
  · intro hm
    rw [← hs] at hm
    rcases mem_joinSep hm with he | ⟨p, hp, hcp⟩
    · exact absurd he (by decide)
    · simp only [List.mem_cons, List.not_mem_nil, or_false] at hp
      rcases hp with rfl | rfl | rfl | rfl
      · exact decDigit_ne_colon (parse_octet_digits ha _ hcp) rfl
      · exact decDigit_ne_colon (parse_octet_digits hb _ hcp) rfl
      · exact decDigit_ne_colon (parse_octet_digits hc _ hcp) rfl
      · exact decDigit_ne_colon (parse_octet_digits hd _ hcp) rfl
  · intro hm
    rw [← hs] at hm
    rcases mem_joinSep hm with he | ⟨p, hp, hcp⟩
    · exact absurd he (by decide)
    · simp only [List.mem_cons, List.not_mem_nil, or_false] at hp
      rcases hp with rfl | rfl | rfl | rfl
      · exact decDigit_ne_slash (parse_octet_digits ha _ hcp) rfl
      · exact decDigit_ne_slash (parse_octet_digits hb _ hcp) rfl
      · exact decDigit_ne_slash (parse_octet_digits hc _ hcp) rfl
      · exact decDigit_ne_slash (parse_octet_digits hd _ hcp) rfl

theorem range'_take : ∀ (a m k : Nat), (List.range' a m).take k = List.range' a (min k m) := by
  intro a m
  induction m generalizing a with
  | zero => simp
  | succ m ih =>
    intro k
    rw [List.range'_succ]
    cases k with
    | zero => simp
    | succ k =>
      rw [List.take_succ_cons, ih (a + 1) k]
      have : min (k + 1) (m + 1) = min k m + 1 := by omega
      rw [this, List.range'_succ]

theorem range'_drop : ∀ (a m k : Nat), (List.range' a m).drop k = List.range' (a + k) (m - k) := by
  intro a m
  induction m generalizing a with
  | zero => simp
  | succ m ih =>
    intro k
    rw [List.range'_succ]
    cases k with
    | zero => simp [List.range'_succ]
    | succ k =>
      rw [List.drop_succ_cons, ih (a + 1) k]
      have h1 : a + 1 + k = a + (k + 1) := by omega
      have h2 : m - k = m + 1 - (k + 1) := by omega
      rw [h1, h2]

theorem getElem?_eq_head?_drop (l : List (List Char)) (i : Nat) :
    l[i]? = (l.drop i).head? := by
  induction i generalizing l with
  | zero => cases l <;> simp
  | succ i ih =>
    cases l with
    | nil => simp
    | cons a t =>
      simp only [List.drop_succ_cons]
      rw [← ih t]
      simp

theorem shl16_or {a v : Nat} (h : v < 65536) : a <<< 16 ||| v = a * 65536 + v := by
  have h16 : (2 : Nat) ^ 16 = 65536 := by norm_num
  rw [Nat.shiftLeft_eq, h16]
  calc a * 65536 ||| v = 65536 * a ||| v := by rw [Nat.mul_comm]
  _ = 65536 * a + v := by
      have hor := Nat.mul_add_lt_is_or (show v < 2 ^ 16 by omega) a
      rw [h16] at hor
      exact hor.symm
  _ = a * 65536 + v := by ring

theorem foldHextets_map {g : Nat → Nat} (idxs : List Nat) (acc : Nat)
    (hb : ∀ i ∈ idxs, g i < 65536) :
    foldHextets (idxs.map fun i => hexRep (g i)) acc
      = some (idxs.foldl (fun a i => a * 65536 + g i) acc) := by
  induction idxs generalizing acc with
  | nil => rfl
  | cons i t ih =>
    simp only [List.map_cons, List.foldl_cons]
    rw [foldHextets, parse_hextet_hexRep (hb i (by simp))]
    dsimp only
    rw [shl16_or (hb i (by simp))]
    exact ih _ (fun w hw => hb w (by simp [hw]))

theorem foldHextets_bound {ps : List (List Char)} {acc r k : Nat}
    (hacc : acc < 2 ^ (16 * k)) (h : foldHextets ps acc = some r) :
    r < 2 ^ (16 * (k + ps.length)) := by
  induction ps generalizing acc k with
  | nil =>
    rw [foldHextets] at h
    injection h with hr
    subst hr
    simpa using hacc
  | cons p t ih =>
    rw [foldHextets] at h
    cases hp : _parse_hextet p with
    | none => rw [hp] at h; exact Option.noConfusion h
    | some v =>
      rw [hp] at h
      have hv := parse_hextet_lt hp
      have hacc' : acc <<< 16 ||| v < 2 ^ (16 * (k + 1)) := by
        rw [shl16_or hv]
        have hp16 : (2 : Nat) ^ (16 * (k + 1)) = 2 ^ (16 * k) * 65536 := by
          rw [show 16 * (k + 1) = 16 * k + 16 from by ring, pow_add]
          norm_num
        rw [hp16]
        calc acc * 65536 + v ≤ (2 ^ (16 * k) - 1) * 65536 + 65535 := by
              have : acc ≤ 2 ^ (16 * k) - 1 := by omega
              have hm := Nat.mul_le_mul_right 65536 this
              omega
        _ < 2 ^ (16 * k) * 65536 := by
              have hpos : 1 ≤ (2 : Nat) ^ (16 * k) := Nat.one_le_two_pow
              have := Nat.mul_le_mul_right 65536 hpos
              omega
      have := ih hacc' h
      rwa [show k + 1 + t.length = k + (t.length + 1) from by ring] at this

theorem foldl_range'_digits (n : Nat) : ∀ (j t A : Nat), t + j ≤ 8 →
    (List.range' t j).foldl (fun a i => a * 65536 + n / 2 ^ (16 * (7 - i)) % 65536) A
      = A * 2 ^ (16 * j) + n / 2 ^ (16 * (8 - t - j)) % 2 ^ (16 * j) := by
  intro j
  induction j with
  | zero =>
    intro t A ht
    simp [Nat.mod_one]
  | succ j ih =>
    intro t A ht
    rw [List.range'_succ, List.foldl_cons, ih (t + 1) _ (by omega)]
    have e1 : 8 - (t + 1) - j = 7 - t - j := by omega
    have e2 : 8 - t - (j + 1) = 7 - t - j := by omega
    rw [e1, e2]
    have hx : n / 2 ^ (16 * (7 - t)) = n / 2 ^ (16 * (7 - t - j)) / 2 ^ (16 * j) := by
      rw [Nat.div_div_eq_div_mul, ← pow_add]
      have : 16 * (7 - t - j) + 16 * j = 16 * (7 - t) := by omega
      rw [this]
    rw [hx]
    have hmm := @Nat.mod_mul (2 ^ (16 * j)) (2 ^ 16) (n / 2 ^ (16 * (7 - t - j)))
    have hpp : (2 : Nat) ^ (16 * j) * 2 ^ 16 = 2 ^ (16 * (j + 1)) := by
      have he : 16 * j + 16 = 16 * (j + 1) := by ring
      rw [← pow_add, he]
    rw [hpp] at hmm
    have h65536 : (65536 : Nat) = 2 ^ 16 := by norm_num
    rw [h65536]
    rw [hmm]
    ring

theorem foldl_range'_zero (n : Nat) : ∀ (j t A : Nat),
    (∀ i, t ≤ i → i < t + j → n / 2 ^ (16 * (7 - i)) % 65536 = 0) →
    (List.range' t j).foldl (fun a i => a * 65536 + n / 2 ^ (16 * (7 - i)) % 65536) A
      = A * 65536 ^ j := by
  intro j
  induction j with
  | zero =>
    intro t A hz
    simp
  | succ j ih =>
    intro t A hz
    rw [List.range'_succ, List.foldl_cons]
    rw [hz t (Nat.le_refl t) (by omega), Nat.add_zero]
    rw [ih (t + 1) _ (fun i h1 h2 => hz i (by omega) (by omega))]
    ring

theorem bestRunAux_spec (hs : List (List Char)) :
    ∀ (t : List (List Char)) (i : Nat) (best cur : Nat × Nat),
      hs.drop i = t →
      best.1 + best.2 ≤ hs.length →
      (∀ j, best.1 ≤ j → j < best.1 + best.2 → hs[j]? = some ['0']) →
      cur.1 + cur.2 ≤ hs.length →
      (∀ j, cur.1 ≤ j → j < cur.1 + cur.2 → hs[j]? = some ['0']) →
      (cur.2 = 0 ∨ cur.1 + cur.2 = i) →
      (bestRunAux t i best cur).1 + (bestRunAux t i best cur).2 ≤ hs.length ∧
        ∀ j, (bestRunAux t i best cur).1 ≤ j →
          j < (bestRunAux t i best cur).1 + (bestRunAux t i best cur).2 →
          hs[j]? = some ['0'] := by
  intro t
  induction t with
  | nil =>
    intro i best cur hd hb1 hb2 hc1 hc2 hcur
    rw [bestRunAux]
    exact ⟨hb1, hb2⟩
  | cons p t' ih =>
    rintro i ⟨bs, bl⟩ ⟨cs, cl⟩ hd hb1 hb2 hc1 hc2 hcur
    have hgi : hs[i]? = some p := by
      rw [getElem?_eq_head?_drop, hd]
      rfl
    have hiLen : i < hs.length := by
      by_contra hge
      rw [List.getElem?_eq_none (by omega)] at hgi
      exact Option.noConfusion hgi
    have hd' : hs.drop (i + 1) = t' := by
      have hdd := List.drop_drop 1 i hs
      rw [← hdd, hd]
      rfl
    rw [bestRunAux]
    by_cases hp : p == ['0']
    · have hp' : p = ['0'] := by simpa using hp
      subst hp'
      simp only [hp, if_true]
      by_cases hcl : cl = 0
      · subst hcl
        simp only [if_pos rfl]
        have hcur2 : ∀ j, i ≤ j → j < i + 1 → hs[j]? = some ['0'] := by
          intro j h1 h2
          have : j = i := by omega
          subst this
          exact hgi
        by_cases hgt : 0 + 1 > bl
        · simp only [hgt, if_pos (by simpa using hgt)]
          exact ih (i + 1) (i, 0 + 1) (i, 0 + 1) hd' (by simp; omega)
            (by simpa using hcur2) (by simp; omega) (by simpa using hcur2)
            (Or.inr (by simp))
        · simp only [if_neg hgt]
          exact ih (i + 1) (bs, bl) (i, 0 + 1) hd' hb1 hb2 (by simp; omega)
            (by simpa using hcur2) (Or.inr (by simp))
      · have hcsl : cs + cl = i := by
          rcases hcur with h0 | h0
          · exact absurd h0 hcl
          · exact h0
        simp only [if_neg hcl]
        have hcur2 : ∀ j, cs ≤ j → j < cs + (cl + 1) → hs[j]? = some ['0'] := by
          intro j h1 h2
          by_cases hj : j < cs + cl
          · exact hc2 j h1 hj
          · have : j = i := by omega
            subst this
            exact hgi
        by_cases hgt : cl + 1 > bl
        · simp only [if_pos (by simpa using hgt)]
          exact ih (i + 1) (cs, cl + 1) (cs, cl + 1) hd' (by simp; omega)
            (by simpa using hcur2) (by simp; omega) (by simpa using hcur2)
            (Or.inr (by simp; omega))
        · simp only [if_neg hgt]
          exact ih (i + 1) (bs, bl) (cs, cl + 1) hd' hb1 hb2 (by simp; omega)
            (by simpa using hcur2) (Or.inr (by simp; omega))
    · simp only [hp, if_false]
      exact ih (i + 1) (bs, bl) (0, 0) hd' hb1 hb2 (by simp)
        (fun j h1 h2 => absurd h2 (by omega)) (Or.inl rfl)

theorem bestRun_spec (hs : List (List Char)) :
    (bestRun hs).1 + (bestRun hs).2 ≤ hs.length ∧
      ∀ j, (bestRun hs).1 ≤ j → j < (bestRun hs).1 + (bestRun hs).2 →
        hs[j]? = some ['0'] := by
  exact bestRunAux_spec hs hs 0 (0, 0) (0, 0) rfl (by simp)
    (fun j h1 h2 => absurd h2 (by omega)) (by simp)
    (fun j h1 h2 => absurd h2 (by omega)) (Or.inl rfl)

theorem compress_shape {hs : List (List Char)} {bs bl : Nat}
    (hbr : bestRun hs = (bs, bl)) (hbl : 1 < bl) (hle : bs + bl ≤ hs.length) :
    _compress_hextets hs
      = (if bs = 0 then [[]] else []) ++ hs.take bs ++ [[]] ++ hs.drop (bs + bl)
          ++ (if bs + bl = hs.length then [[]] else []) := by
  unfold _compress_hextets
  rw [hbr]
  simp only []
  rw [if_pos (by simpa using hbl)]
  by_cases hend : bs + bl = hs.length
  · rw [if_pos hend]
    have htake : (hs ++ [[]]).take bs = hs.take bs := by
      rw [List.take_append_eq_append_take]
      have hz : bs - hs.length = 0 := by omega
      simp [hz]
    have hdrop : (hs ++ [([] : List Char)]).drop (bs + bl) = [[]] :=
      List.drop_left' (by omega)
    have hd0 : hs.drop (bs + bl) = [] := by
      rw [hend]
      exact List.drop_length hs
    rw [htake, hdrop, hd0]
    by_cases hbs : bs = 0
    · have hbl2 : bl = hs.length := by omega
      simp [hbs, hbl2]
    · simp [hbs, hend]
  · rw [if_neg hend]
    by_cases hbs : bs = 0
    · have hbl2 : ¬ bl = hs.length := by omega
      simp [hbs, hbl2, List.append_assoc]
    · simp [hbs, hend, List.append_assoc]

theorem findSkipAux_none {t : List (List Char)} (h : ∀ p ∈ t, p.isEmpty = false) :
    ∀ (i : Nat) (acc : Option Nat), findSkipAux t i acc = some acc := by
  induction t with
  | nil => intro i acc; rfl
  | cons p t' ih =>
    intro i acc
    cases acc with
    | none =>
      rw [findSkipAux, h p (by simp)]
      exact ih (fun w hw => h w (by simp [hw])) (i + 1) none
    | some a =>
      rw [findSkipAux, h p (by simp)]
      exact ih (fun w hw => h w (by simp [hw])) (i + 1) (some a)

theorem findSkipAux_single {A B : List (List Char)}
    (hA : ∀ p ∈ A, p.isEmpty = false) (hB : ∀ p ∈ B, p.isEmpty = false) :
    ∀ i : Nat, findSkipAux (A ++ [] :: B) i none = some (some (i + A.length)) := by
  induction A with
  | nil =>
    intro i
    rw [List.nil_append, findSkipAux]
    simp only [List.isEmpty_nil, if_true]
    rw [findSkipAux_none hB]
    simp
  | cons a A' ih =>
    intro i
    rw [List.cons_append, findSkipAux, hA a (by simp)]
    rw [ih (fun w hw => hA w (by simp [hw])) (i + 1)]
    have : i + 1 + A'.length = i + (A'.length + 1) := by omega
    simp [this]

theorem hextets8_eq (n : Nat) :
    hextets8 n
      = (List.range' 0 8).map fun i => hexRep (n / 2 ^ (16 * (7 - i)) % 65536) := by
  unfold hextets8
  rw [List.range_eq_range']

theorem hextets8_length (n : Nat) : (hextets8 n).length = 8 := by
  rw [hextets8_eq]
  simp

theorem mem_hextets8 {n : Nat} {p : List Char} (h : p ∈ hextets8 n) :
    ∃ v, p = hexRep v := by
  rw [hextets8_eq] at h
  rcases List.mem_map.mp h with ⟨i, _, rfl⟩
  exact ⟨_, rfl⟩

theorem no_colon_hexRep {v : Nat} : ':' ∉ hexRep v :=
  fun hc => hexDigit_ne_colon (hexRep_digits ':' hc) rfl

theorem no_dot_hexRep {v : Nat} : '.' ∉ hexRep v :=
  fun hc => hexDigit_ne_dot (hexRep_digits '.' hc) rfl

theorem hexRep_not_isEmpty (v : Nat) : (hexRep v).isEmpty = false := by
  simp [hexRep_ne_nil]

theorem hextets8_take {n bs : Nat} (h : bs ≤ 8) :
    (hextets8 n).take bs
      = (List.range' 0 bs).map fun i => hexRep (n / 2 ^ (16 * (7 - i)) % 65536) := by
  rw [hextets8_eq, ← List.map_take, range'_take]
  rw [Nat.min_eq_left h]

theorem hextets8_drop {n k : Nat} :
    (hextets8 n).drop k
      = (List.range' k (8 - k)).map fun i => hexRep (n / 2 ^ (16 * (7 - i)) % 65536) := by
  rw [hextets8_eq, ← List.map_drop, range'_drop]
  rw [Nat.zero_add]

theorem run_digits_zero {n bs bl : Nat} (h8 : bs + bl ≤ 8)
    (hrun : ∀ j, bs ≤ j → j < bs + bl → (hextets8 n)[j]? = some ['0']) :
    ∀ j, bs ≤ j → j < bs + bl → n / 2 ^ (16 * (7 - j)) % 65536 = 0 := by
  intro j hj1 hj2
  have hj8 : j < 8 := by omega
  have hg : (hextets8 n)[j]? = some (hexRep (n / 2 ^ (16 * (7 - j)) % 65536)) := by
    rw [hextets8_eq, List.getElem?_map, List.getElem?_range' 0 1 hj8]
    simp
  rw [hrun j hj1 hj2] at hg
  injection hg with hg
  exact hexRep_eq_zero_iff.mp hg.symm

theorem mid_digits_zero {n bs bl : Nat} (hle : bs + bl ≤ 8)
    (hz : ∀ j, bs ≤ j → j < bs + bl → n / 2 ^ (16 * (7 - j)) % 65536 = 0) :
    n / 2 ^ (16 * (8 - bs - bl)) % 2 ^ (16 * bl) = 0 := by
  have h1 := foldl_range'_digits n bl bs 0 (by omega)
  have h2 := foldl_range'_zero n bl bs 0 (fun i hi1 hi2 => hz i hi1 (by omega))
  rw [h1] at h2
  omega

theorem ipv6_from_string_shape {s : List Char} {ps : List (List Char)}
    (hne : s.isEmpty = false)
    (hsplit : splitOnChar ':' s = ps)
    (h3 : ¬ ps.length < 3) (h9 : ¬ ps.length > 9)
    (hdot : '.' ∉ ps.getLastD []) :
    ipv6_from_string s =
      match findSkipAux ((ps.drop 1).dropLast) 1 none with
      | none => none
      | some (some skipIdx) => ipv6_assemble ps skipIdx
      | some none =>
        if decide (ps.length ≠ 8) then none
        else if (ps.headD ['x']).isEmpty then none
        else if (ps.getLastD ['x']).isEmpty then none
        else foldHextets ps 0 := by
  unfold ipv6_from_string
  rw [if_neg (by simp [hne])]
  rw [hsplit]
  rw [if_neg (by simpa using h3)]
  rw [if_neg hdot]
  dsimp only
  rw [if_neg (by simpa using h9)]

theorem ipv6_assemble_lead {parts : List (List Char)}
    (hhe : (parts.headD ['x']).isEmpty = true)
    (hle : (parts.getLastD ['x']).isEmpty = false)
    (h3 : 3 ≤ parts.length) (h9 : parts.length ≤ 9) :
    ipv6_assemble parts 1 = foldHextets (parts.drop 2) 0 := by
  unfold ipv6_assemble
  rw [hhe, hle]
  simp only [Bool.true_and, Bool.false_and, Bool.false_eq_true, if_false, if_true]
  rw [if_neg (by simp)]
  rw [if_neg (show ¬ (decide (8 - ((1:Nat) - 1 + (parts.length - 1 - 1)) = 0) = true)
    by simp; omega)]
  have hd2 : parts.length - (parts.length - 1 - 1) = 2 := by omega
  rw [hd2]
  show foldHextets (parts.drop 2) (0 <<< (16 * (8 - (1 - 1 + (parts.length - 1 - 1))))) = _
  rw [Nat.zero_shiftLeft]

theorem ipv6_assemble_trail {parts : List (List Char)} {k : Nat}
    (hhe : (parts.headD ['x']).isEmpty = false)
    (hle : (parts.getLastD ['x']).isEmpty = true)
    (hk : k + 2 = parts.length) (h1 : 1 ≤ k) (hk7 : k ≤ 7) :
    ipv6_assemble parts k =
      match foldHextets (parts.take k) 0 with
      | none => none
      | some hiv => some (hiv <<< (16 * (8 - k))) := by
  unfold ipv6_assemble
  rw [hhe, hle]
  simp only [Bool.true_and, Bool.false_and, Bool.false_eq_true, if_false, if_true]
  have hlo : parts.length - k - 1 - 1 = 0 := by omega
  rw [hlo]
  rw [if_neg (by simp)]
  rw [if_neg (show ¬ (decide (8 - (k + 0) = 0) = true) by simp; omega)]
  have hd : parts.length - 0 = parts.length := by omega
  rw [hd, List.drop_length]
  cases hf : foldHextets (parts.take k) 0 with
  | none => rfl
  | some hiv =>
    show foldHextets [] (hiv <<< (16 * (8 - (k + 0)))) = some (hiv <<< (16 * (8 - k)))
    rw [foldHextets, Nat.add_zero]

theorem ipv6_assemble_mid {parts : List (List Char)} {k : Nat}
    (hhe : (parts.headD ['x']).isEmpty = false)
    (hle : (parts.getLastD ['x']).isEmpty = false)
    (h8 : parts.length ≤ 8)
    (hk1 : 1 ≤ k) (hkl : k + 2 ≤ parts.length) :
    ipv6_assemble parts k =
      match foldHextets (parts.take k) 0 with
      | none => none
      | some hiv =>
        foldHextets (parts.drop (k + 1))
          (hiv <<< (16 * (8 - (k + (parts.length - k - 1))))) := by
  unfold ipv6_assemble
  rw [hhe, hle]
  simp only [Bool.false_and, Bool.false_eq_true, if_false]
  rw [if_neg (show ¬ (decide (8 - (k + (parts.length - k - 1)) = 0) = true)
    by simp; omega)]
  have hd : parts.length - (parts.length - k - 1) = k + 1 := by omega
  rw [hd]

theorem foldHextets_take_val (n : Nat) {bs : Nat} (hbs : bs ≤ 8) :
    foldHextets ((hextets8 n).take bs) 0
      = some (n / 2 ^ (16 * (8 - bs)) % 2 ^ (16 * bs)) := by
  rw [hextets8_take hbs]
  have hm := @foldHextets_map (fun i => n / 2 ^ (16 * (7 - i)) % 65536) (List.range' 0 bs) 0
    (fun i _ => Nat.mod_lt _ (by norm_num))
  rw [hm, foldl_range'_digits n bs 0 0 (by omega)]
  norm_num

theorem foldHextets_drop_val (n : Nat) {t : Nat} (ht : t ≤ 8) (A : Nat) :
    foldHextets ((hextets8 n).drop t) A
      = some (A * 2 ^ (16 * (8 - t)) + n % 2 ^ (16 * (8 - t))) := by
  rw [hextets8_drop]
  have hm := @foldHextets_map (fun i => n / 2 ^ (16 * (7 - i)) % 65536) (List.range' t (8 - t)) A
    (fun i _ => Nat.mod_lt _ (by norm_num))
  rw [hm, foldl_range'_digits n (8 - t) t A (by omega)]
  have h0 : 8 - t - (8 - t) = 0 := by omega
  rw [h0]
  norm_num

theorem low_bits_all {n u w : Nat} (hn : n < 2 ^ u * 2 ^ w)
    (hz : n / 2 ^ u % 2 ^ w = 0) : n % 2 ^ u = n := by
  have hd : n / 2 ^ u < 2 ^ w := Nat.div_lt_of_lt_mul hn
  have hd0 : n / 2 ^ u = 0 := by rw [← hz]; exact (Nat.mod_eq_of_lt hd).symm
  exact Nat.mod_eq_of_lt ((Nat.div_eq_zero_iff (Nat.pos_pow_of_pos u (by norm_num))).mp hd0)

theorem high_bits_only {n u w : Nat} (hn : n < 2 ^ u * 2 ^ w)
    (hz : n % 2 ^ u = 0) : n / 2 ^ u % 2 ^ w * 2 ^ u = n := by
  rw [Nat.mod_eq_of_lt (Nat.div_lt_of_lt_mul hn)]
  exact Nat.div_mul_cancel (Nat.dvd_of_mod_eq_zero hz)

theorem split_bits {n u w : Nat} (hz : n / 2 ^ u % 2 ^ w = 0) :
    n / (2 ^ u * 2 ^ w) * (2 ^ u * 2 ^ w) + n % 2 ^ u = n := by
  have hm : n % (2 ^ u * 2 ^ w) = n % 2 ^ u + 2 ^ u * (n / 2 ^ u % 2 ^ w) := Nat.mod_mul
  rw [hz, Nat.mul_zero, Nat.add_zero] at hm
  rw [← hm]
  exact Nat.div_add_mod' n (2 ^ u * 2 ^ w)

theorem map_hexRep_nonempty (g : Nat → Nat) (l : List Nat) :
    ∀ p ∈ l.map fun i => hexRep (g i), p.isEmpty = false := by
  intro p hp
  rcases List.mem_map.mp hp with ⟨i, _, rfl⟩
  exact hexRep_not_isEmpty _

theorem hextets8_take_cons {n bs : Nat} (h1 : 1 ≤ bs) (h8 : bs ≤ 8) :
    (hextets8 n).take bs
      = hexRep (n / 2 ^ (16 * 7) % 65536)
        :: (List.range' 1 (bs - 1)).map fun i => hexRep (n / 2 ^ (16 * (7 - i)) % 65536) := by
  rw [hextets8_take h8]
  obtain ⟨m, rfl⟩ : ∃ m, bs = m + 1 := ⟨bs - 1, by omega⟩
  rw [List.range'_succ]
  simp

theorem hextets8_drop_concat {n k : Nat} (h : k ≤ 7) :
    (hextets8 n).drop k
      = ((List.range' k (7 - k)).map fun i => hexRep (n / 2 ^ (16 * (7 - i)) % 65536))
        ++ [hexRep (n % 65536)] := by
  rw [hextets8_drop, show 8 - k = (7 - k) + 1 by omega, List.range'_concat, List.map_append,
      show k + 1 * (7 - k) = 7 by omega]
  norm_num

theorem ipv6_rt_nocompress {n : Nat} (hn : n < 2 ^ 128) :
    ipv6_from_string (joinSep ':' (hextets8 n)) = some n := by
  have hs8 := hextets8_length n
  have hnc : ∀ p ∈ hextets8 n, ':' ∉ p := by
    intro p hp
    rcases mem_hextets8 hp with ⟨v, rfl⟩
    exact no_colon_hexRep
  have hsne : hextets8 n ≠ [] := by
    intro h
    rw [h] at hs8
    simp at hs8
  have hsplit := splitOnChar_joinSep hsne hnc
  have hjne : (joinSep ':' (hextets8 n)).isEmpty = false := by
    rw [List.isEmpty_eq_false]
    exact joinSep_ne_nil_of_two (by omega)
  have hdec := @hextets8_drop_concat n 0 (by omega)
  rw [List.drop_zero] at hdec
  have hlastD : ∀ d : List Char, (hextets8 n).getLastD d = hexRep (n % 65536) := by
    intro d
    rw [hdec, List.getLastD_concat]
  have hheadD : (hextets8 n).headD ['x'] = hexRep (n / 2 ^ (16 * 7) % 65536) := by
    rw [show hextets8 n = (hextets8 n).take 8 by rw [List.take_of_length_le (by omega)],
      hextets8_take_cons (by omega) (by omega)]
    rfl
  rw [ipv6_from_string_shape hjne hsplit (by omega) (by omega)
    (by rw [hlastD]; exact no_dot_hexRep)]
  have hint : ∀ p ∈ ((hextets8 n).drop 1).dropLast, p.isEmpty = false := by
    intro p hp
    rw [List.dropLast_eq_take] at hp
    rcases mem_hextets8 (List.mem_of_mem_drop (List.mem_of_mem_take hp)) with ⟨v, rfl⟩
    exact hexRep_not_isEmpty v
  rw [findSkipAux_none hint 1 none]
  dsimp only
  rw [if_neg (by rw [hs8]; simp)]
  rw [hheadD, hexRep_not_isEmpty]
  rw [hlastD ['x'], hexRep_not_isEmpty]
  simp only [Bool.false_eq_true, if_false]
  have hf := foldHextets_drop_val n (show (0 : Nat) ≤ 8 by omega) 0
  rw [List.drop_zero] at hf
  rw [hf]
  norm_num
  omega

theorem ipv6_rt_lead {n bl : Nat} (hn : n < 2 ^ 128) (hbl2 : 2 ≤ bl) (hbl7 : bl ≤ 7)
    (hz : ∀ j, j < bl → n / 2 ^ (16 * (7 - j)) % 65536 = 0) :
    ipv6_from_string (joinSep ':' ([] :: [] :: (hextets8 n).drop bl)) = some n := by
  have hdec := @hextets8_drop_concat n bl (by omega)
  have hlen : ([] :: [] :: (hextets8 n).drop bl).length = 10 - bl := by
    have := hextets8_length n
    simp only [List.length_cons, List.length_drop, this]
    omega
  have hnc : ∀ p ∈ ([] :: [] :: (hextets8 n).drop bl), ':' ∉ p := by
    intro p hp
    simp only [List.mem_cons] at hp
    rcases hp with rfl | rfl | hp
    · simp
    · simp
    · rcases mem_hextets8 (List.mem_of_mem_drop hp) with ⟨v, rfl⟩
      exact no_colon_hexRep
  have hsplit := splitOnChar_joinSep (List.cons_ne_nil _ _) hnc
  have hjne : (joinSep ':' ([] :: [] :: (hextets8 n).drop bl)).isEmpty = false := by
    rw [List.isEmpty_eq_false]
    exact joinSep_ne_nil_of_two (by rw [hlen]; omega)
  have hlastD : ∀ d : List Char,
      ([] :: [] :: (hextets8 n).drop bl).getLastD d = hexRep (n % 65536) := by
    intro d
    rw [hdec, ← List.cons_append, ← List.cons_append, List.getLastD_concat]
  rw [ipv6_from_string_shape hjne hsplit (by rw [hlen]; omega) (by rw [hlen]; omega)
    (by rw [hlastD]; exact no_dot_hexRep)]
  have hint : (([] :: [] :: (hextets8 n).drop bl).drop 1).dropLast
      = [] ++ [] :: (List.range' bl (7 - bl)).map
          fun i => hexRep (n / 2 ^ (16 * (7 - i)) % 65536) := by
    show ([] :: (hextets8 n).drop bl).dropLast = _
    rw [hdec, ← List.cons_append, List.dropLast_concat, List.nil_append]
  rw [hint, findSkipAux_single (by simp)
    (map_hexRep_nonempty (fun i => n / 2 ^ (16 * (7 - i)) % 65536) (List.range' bl (7 - bl))) 1]
  simp only [List.length_nil, Nat.add_zero]
  rw [ipv6_assemble_lead (by rfl) (by rw [hlastD ['x']]; exact hexRep_not_isEmpty _)
    (by rw [hlen]; omega) (by rw [hlen]; omega)]
  show foldHextets ((hextets8 n).drop bl) 0 = some n
  rw [foldHextets_drop_val n (show bl ≤ 8 by omega) 0]
  have hmid := mid_digits_zero (show 0 + bl ≤ 8 by omega)
    (fun j h1 h2 => hz j (by omega))
  rw [show (8 : Nat) - 0 - bl = 8 - bl by omega] at hmid
  have hlow := @low_bits_all n (16 * (8 - bl)) (16 * bl)
    (by rw [← pow_add, show 16 * (8 - bl) + 16 * bl = 128 by omega]; exact hn) hmid
  rw [Nat.zero_mul, Nat.zero_add, hlow]

theorem ipv6_rt_trail {n bs bl : Nat} (hn : n < 2 ^ 128) (hbs1 : 1 ≤ bs) (hbl2 : 2 ≤ bl)
    (hsum : bs + bl = 8)
    (hz : ∀ j, bs ≤ j → j < 8 → n / 2 ^ (16 * (7 - j)) % 65536 = 0) :
    ipv6_from_string (joinSep ':' ((hextets8 n).take bs ++ [[], []])) = some n := by
  have htake := @hextets8_take_cons n bs (by omega) (by omega)
  have htlen : ((hextets8 n).take bs).length = bs := by
    rw [List.length_take, hextets8_length]
    omega
  have hlen : ((hextets8 n).take bs ++ [[], []]).length = bs + 2 := by
    rw [List.length_append, htlen]
    rfl
  have hnc : ∀ p ∈ (hextets8 n).take bs ++ [[], []], ':' ∉ p := by
    intro p hp
    rcases List.mem_append.mp hp with hp | hp
    · rcases mem_hextets8 (List.mem_of_mem_take hp) with ⟨v, rfl⟩
      exact no_colon_hexRep
    · simp only [List.mem_cons] at hp
      rcases hp with rfl | rfl | hp
      · simp
      · simp
      · exact absurd hp (List.not_mem_nil p)
  have hpne : (hextets8 n).take bs ++ [[], []] ≠ [] := by
    intro h
    rw [h] at hlen
    simp at hlen
  have hsplit := splitOnChar_joinSep hpne hnc
  have hjne : (joinSep ':' ((hextets8 n).take bs ++ [[], []])).isEmpty = false := by
    rw [List.isEmpty_eq_false]
    exact joinSep_ne_nil_of_two (by rw [hlen]; omega)
  have hlastD : ∀ d : List Char,
      ((hextets8 n).take bs ++ [[], []]).getLastD d = [] := by
    intro d
    rw [show (hextets8 n).take bs ++ [[], []]
        = ((hextets8 n).take bs ++ [[]]) ++ [([] : List Char)] from by simp,
      List.getLastD_concat]
  rw [ipv6_from_string_shape hjne hsplit (by rw [hlen]; omega) (by rw [hlen]; omega)
    (by rw [hlastD]; simp)]
  have hint : (((hextets8 n).take bs ++ [[], []]).drop 1).dropLast
      = ((List.range' 1 (bs - 1)).map fun i => hexRep (n / 2 ^ (16 * (7 - i)) % 65536))
          ++ [] :: [] := by
    rw [htake, List.cons_append]
    show (((List.range' 1 (bs - 1)).map fun i => hexRep (n / 2 ^ (16 * (7 - i)) % 65536))
        ++ [[], []]).dropLast = _
    rw [show ((List.range' 1 (bs - 1)).map fun i => hexRep (n / 2 ^ (16 * (7 - i)) % 65536))
          ++ [[], []]
        = (((List.range' 1 (bs - 1)).map fun i => hexRep (n / 2 ^ (16 * (7 - i)) % 65536))
            ++ [[]]) ++ [([] : List Char)] from by simp,
      List.dropLast_concat]
  rw [hint, findSkipAux_single
    (map_hexRep_nonempty (fun i => n / 2 ^ (16 * (7 - i)) % 65536) (List.range' 1 (bs - 1)))
    (by intro p hp; exact absurd hp (List.not_mem_nil p)) 1]
  simp only [List.length_map, List.length_range']
  rw [show 1 + (bs - 1) = bs by omega]
  rw [ipv6_assemble_trail
    (by rw [htake, List.cons_append]; exact hexRep_not_isEmpty _)
    (by rw [hlastD ['x']]; rfl)
    (by rw [hlen]) (by omega) (by omega)]
  rw [List.take_left' htlen, foldHextets_take_val n (show bs ≤ 8 by omega)]
  dsimp only
  rw [Nat.shiftLeft_eq, show (8 : Nat) - bs = bl by omega]
  have hmid := mid_digits_zero (show bs + bl ≤ 8 by omega)
    (fun j h1 h2 => hz j h1 (by omega))
  rw [show (8 : Nat) - bs - bl = 0 by omega] at hmid
  norm_num at hmid
  have hhigh := @high_bits_only n (16 * bl) (16 * bs)
    (by rw [← pow_add, show 16 * bl + 16 * bs = 128 by omega]; exact hn) hmid
  rw [hhigh]


theorem ipv6_rt_mid {n bs bl : Nat} (hn : n < 2 ^ 128) (hbs1 : 1 ≤ bs) (hbl2 : 2 ≤ bl)
    (hsum : bs + bl ≤ 7)
    (hz : ∀ j, bs ≤ j → j < bs + bl → n / 2 ^ (16 * (7 - j)) % 65536 = 0) :
    ipv6_from_string
      (joinSep ':' ((hextets8 n).take bs ++ [[]] ++ (hextets8 n).drop (bs + bl)))
      = some n := by
  have htake := @hextets8_take_cons n bs (by omega) (by omega)
  have hdec := @hextets8_drop_concat n (bs + bl) (by omega)
  have htlen : ((hextets8 n).take bs).length = bs := by
    rw [List.length_take, hextets8_length]
    omega
  have hlen : ((hextets8 n).take bs ++ [[]] ++ (hextets8 n).drop (bs + bl)).length
      = 9 - bl := by
    rw [List.length_append, List.length_append, htlen, List.length_drop, hextets8_length]
    simp
    omega
  have hnc : ∀ p ∈ (hextets8 n).take bs ++ [[]] ++ (hextets8 n).drop (bs + bl), ':' ∉ p := by
    intro p hp
    rcases List.mem_append.mp hp with hp | hp
    · rcases List.mem_append.mp hp with hp | hp
      · rcases mem_hextets8 (List.mem_of_mem_take hp) with ⟨v, rfl⟩
        exact no_colon_hexRep
      · simp only [List.mem_singleton] at hp
        subst hp
        simp
    · rcases mem_hextets8 (List.mem_of_mem_drop hp) with ⟨v, rfl⟩
      exact no_colon_hexRep
  have hpne : (hextets8 n).take bs ++ [[]] ++ (hextets8 n).drop (bs + bl) ≠ [] := by
    intro h
    rw [h] at hlen
    simp at hlen
    omega
  have hsplit := splitOnChar_joinSep hpne hnc
  have hjne : (joinSep ':'
      ((hextets8 n).take bs ++ [[]] ++ (hextets8 n).drop (bs + bl))).isEmpty = false := by
    rw [List.isEmpty_eq_false]
    exact joinSep_ne_nil_of_two (by rw [hlen]; omega)
  have hlastD : ∀ d : List Char,
      ((hextets8 n).take bs ++ [[]] ++ (hextets8 n).drop (bs + bl)).getLastD d
        = hexRep (n % 65536) := by
    intro d
    rw [hdec, ← List.append_assoc, List.getLastD_concat]
  rw [ipv6_from_string_shape hjne hsplit (by rw [hlen]; omega) (by rw [hlen]; omega)
    (by rw [hlastD]; exact no_dot_hexRep)]
  have hint : ((((hextets8 n).take bs ++ [[]] ++ (hextets8 n).drop (bs + bl)).drop 1)).dropLast
      = ((List.range' 1 (bs - 1)).map fun i => hexRep (n / 2 ^ (16 * (7 - i)) % 65536))
          ++ [] :: ((List.range' (bs + bl) (7 - (bs + bl))).map
            fun i => hexRep (n / 2 ^ (16 * (7 - i)) % 65536)) := by
    rw [htake, hdec, List.cons_append, List.cons_append]
    show ((((List.range' 1 (bs - 1)).map fun i => hexRep (n / 2 ^ (16 * (7 - i)) % 65536))
          ++ [[]])
        ++ (((List.range' (bs + bl) (7 - (bs + bl))).map
            fun i => hexRep (n / 2 ^ (16 * (7 - i)) % 65536))
          ++ [hexRep (n % 65536)])).dropLast = _
    rw [← List.append_assoc, List.dropLast_concat, List.append_assoc, List.cons_append,
      List.nil_append]
  rw [hint, findSkipAux_single
    (map_hexRep_nonempty (fun i => n / 2 ^ (16 * (7 - i)) % 65536) (List.range' 1 (bs - 1)))
    (map_hexRep_nonempty (fun i => n / 2 ^ (16 * (7 - i)) % 65536)
      (List.range' (bs + bl) (7 - (bs + bl)))) 1]
  simp only [List.length_map, List.length_range']
  rw [show 1 + (bs - 1) = bs by omega]
  rw [ipv6_assemble_mid
    (by rw [htake, List.cons_append, List.cons_append]; exact hexRep_not_isEmpty _)
    (by rw [hlastD ['x']]; exact hexRep_not_isEmpty _)
    (by rw [hlen]; omega) (by omega) (by rw [hlen]; omega)]
  rw [show (hextets8 n).take bs ++ [[]] ++ (hextets8 n).drop (bs + bl)
      = (hextets8 n).take bs ++ ([[]] ++ (hextets8 n).drop (bs + bl)) from
      List.append_assoc _ _ _,
    List.take_left' htlen, ← List.append_assoc,
    List.drop_left' (show (((hextets8 n).take bs ++ [[]]).length) = bs + 1 from by
      rw [List.length_append, htlen]; rfl),
    foldHextets_take_val n (show bs ≤ 8 by omega)]
  dsimp only
  rw [List.length_append, List.length_append, htlen, List.length_drop, hextets8_length,
    List.length_singleton]
  rw [show 8 - (bs + (bs + 1 + (8 - (bs + bl)) - bs - 1)) = bl by omega]
  rw [Nat.shiftLeft_eq, foldHextets_drop_val n (show bs + bl ≤ 8 by omega)]
  rw [show (8 : Nat) - (bs + bl) = 8 - bs - bl by omega]
  have hmid := mid_digits_zero (show bs + bl ≤ 8 by omega) hz
  have hdiv : n / 2 ^ (16 * (8 - bs)) % 2 ^ (16 * bs) = n / 2 ^ (16 * (8 - bs)) :=
    Nat.mod_eq_of_lt (Nat.div_lt_of_lt_mul (by
      rw [← pow_add, show 16 * (8 - bs) + 16 * bs = 128 by omega]
      exact hn))
  have he2 : (2 : Nat) ^ (16 * (8 - bs)) = 2 ^ (16 * (8 - bs - bl)) * 2 ^ (16 * bl) := by
    rw [← pow_add]
    congr 1
    omega
  have hsb := split_bits hmid
  rw [hdiv, he2, Nat.mul_assoc,
    Nat.mul_comm ((2 : Nat) ^ (16 * bl)) ((2 : Nat) ^ (16 * (8 - bs - bl))), hsb]

theorem ipv6_round_trip_value {n : Nat} (hn : n < 2 ^ 128) :
    ipv6_from_string (ipv6_to_string n) = some n := by
  unfold ipv6_to_string
  rcases hbr : bestRun (hextets8 n) with ⟨bs, bl⟩
  have hspec := bestRun_spec (hextets8 n)
  rw [hbr] at hspec
  have hle : bs + bl ≤ 8 := by
    have h1 := hspec.1
    rw [hextets8_length] at h1
    exact h1
  have hz := run_digits_zero hle (fun j h1 h2 => hspec.2 j h1 h2)
  by_cases hbl : 1 < bl
  · have hcs := compress_shape hbr hbl (by rw [hextets8_length]; exact hle)
    rw [hextets8_length] at hcs
    rw [hcs]
    by_cases hbs : bs = 0
    · subst hbs
      by_cases hend : 0 + bl = 8
      · have hbl8 : bl = 8 := by omega
        subst hbl8
        have hmid := mid_digits_zero hle hz
        rw [show (8 : Nat) - 0 - 8 = 0 by omega] at hmid
        norm_num at hmid
        have hn0 : n = 0 := by omega
        subst hn0
        rw [if_pos rfl, if_pos hend]
        decide
      · rw [if_pos rfl, if_neg hend]
        simp only [List.take_zero, List.nil_append, List.append_nil, List.cons_append,
          Nat.zero_add]
        exact ipv6_rt_lead hn (by omega) (by omega)
          (fun j hj => hz j (by omega) (by omega))
    · by_cases hend : bs + bl = 8
      · rw [if_neg hbs, if_pos hend]
        have hdrop8 : (hextets8 n).drop (bs + bl) = [] := by
          rw [hend, ← hextets8_length n]
          exact List.drop_length _
        rw [hdrop8]
        simp only [List.nil_append, List.append_nil]
        rw [List.append_assoc]
        exact ipv6_rt_trail hn (by omega) (by omega) hend
          (fun j h1 h2 => hz j h1 (by omega))
      · rw [if_neg hbs, if_neg hend]
        simp only [List.nil_append, List.append_nil]
        exact ipv6_rt_mid hn (by omega) (by omega) (by omega) hz
  · have hnc : _compress_hextets (hextets8 n) = hextets8 n := by
      unfold _compress_hextets
      rw [hbr]
      simp only []
      rw [if_neg (by simpa using hbl)]
    rw [hnc]
    exact ipv6_rt_nocompress hn

theorem ipv6_assemble_bound {parts : List (List Char)} {skipIdx v : Nat}
    (h : ipv6_assemble parts skipIdx = some v) : v < 2 ^ 128 := by
  unfold ipv6_assemble at h
  simp only [] at h
  generalize hhi : (if (parts.headD ['x']).isEmpty = true then skipIdx - 1 else skipIdx)
      = hi at h
  generalize hlo : (if (parts.getLastD ['x']).isEmpty = true
      then parts.length - skipIdx - 1 - 1 else parts.length - skipIdx - 1) = lo at h
  by_cases h1 : ((parts.headD ['x']).isEmpty && decide (hi ≠ 0)) = true
  · rw [if_pos h1] at h
    exact absurd h (by simp)
  rw [if_neg h1] at h
  by_cases h2 : ((parts.getLastD ['x']).isEmpty && decide (lo ≠ 0)) = true
  · rw [if_pos h2] at h
    exact absurd h (by simp)
  rw [if_neg h2] at h
  by_cases h3 : decide (8 - (hi + lo) = 0) = true
  · rw [if_pos h3] at h
    exact absurd h (by simp)
  rw [if_neg h3] at h
  have hsk : hi + lo ≤ 7 := by
    simp only [decide_eq_true_eq] at h3
    omega
  cases hf : foldHextets (parts.take hi) 0 with
  | none =>
    rw [hf] at h
    exact absurd h (by simp)
  | some hiv =>
    rw [hf] at h
    have hb1 : hiv < 2 ^ (16 * (0 + (parts.take hi).length)) :=
      foldHextets_bound (by norm_num) hf
    rw [Nat.zero_add] at hb1
    have hacc : hiv <<< (16 * (8 - (hi + lo)))
        < 2 ^ (16 * ((parts.take hi).length + (8 - (hi + lo)))) := by
      rw [Nat.shiftLeft_eq, Nat.mul_add, pow_add]
      exact mul_lt_mul_of_pos_right hb1 (by positivity)
    have hb2 := foldHextets_bound hacc h
    refine lt_of_lt_of_le hb2 (Nat.pow_le_pow_right (by norm_num) ?_)
    have e1 : (parts.take hi).length ≤ hi := by
      rw [List.length_take]
      omega
    have e2 : (parts.drop (parts.length - lo)).length ≤ lo := by
      rw [List.length_drop]
      omega
    omega

theorem ipv6_parse_bound {s : List Char} {v : Nat} (h : ipv6_from_string s = some v) :
    v < 2 ^ 128 := by
  unfold ipv6_from_string at h
  by_cases h0 : s.isEmpty = true
  · rw [if_pos h0] at h
    exact absurd h (by simp)
  rw [if_neg h0] at h
  simp only [] at h
  by_cases h1 : decide ((splitOnChar ':' s).length < 3) = true
  · rw [if_pos h1] at h
    exact absurd h (by simp)
  rw [if_neg h1] at h
  split at h
  · exact absurd h (by simp)
  · rename_i parts heq
    by_cases h2 : decide (parts.length > 9) = true
    · rw [if_pos h2] at h
      exact absurd h (by simp)
    rw [if_neg h2] at h
    split at h
    · exact absurd h (by simp)
    · exact ipv6_assemble_bound h
    · by_cases h3 : decide (parts.length ≠ 8) = true
      · rw [if_pos h3] at h
        exact absurd h (by simp)
      rw [if_neg h3] at h
      by_cases h4 : (parts.headD ['x']).isEmpty = true
      · rw [if_pos h4] at h
        exact absurd h (by simp)
      rw [if_neg h4] at h
      by_cases h5 : (parts.getLastD ['x']).isEmpty = true
      · rw [if_pos h5] at h
        exact absurd h (by simp)
      rw [if_neg h5] at h
      have hlen8 : parts.length = 8 := by simpa using h3
      have hb := foldHextets_bound (show (0 : Nat) < 2 ^ (16 * 0) by norm_num) h
      rw [hlen8] at hb
      norm_num at hb
      omega

theorem ipv6_has_colon {s : List Char} {v : Nat} (h : ipv6_from_string s = some v) :
    ':' ∈ s := by
  by_contra hc
  unfold ipv6_from_string at h
  by_cases h0 : s.isEmpty = true
  · rw [if_pos h0] at h
    exact absurd h (by simp)
  rw [if_neg h0] at h
  simp only [] at h
  rw [splitOnChar_of_not_mem hc] at h
  rw [if_pos (by simp)] at h
  exact absurd h (by simp)

theorem sep_mem_joinSep {sep : Char} {ps : List (List Char)} (h : 2 ≤ ps.length) :
    sep ∈ joinSep sep ps := by
  match ps, h with
  | x :: y :: t, _ =>
    show sep ∈ x ++ sep :: joinSep sep (y :: t)
    rw [List.mem_append]
    exact Or.inr (List.mem_cons_self sep _)

theorem mem_compress_hextets {hs : List (List Char)} {p : List Char}
    (h : p ∈ _compress_hextets hs) : p = [] ∨ p ∈ hs := by
  unfold _compress_hextets at h
  simp only [] at h
  by_cases hbl : decide ((bestRun hs).2 > 1) = true
  · rw [if_pos hbl] at h
    have hs1 : ∀ q ∈ (if (bestRun hs).1 + (bestRun hs).2 = hs.length
        then hs ++ [[]] else hs), q = [] ∨ q ∈ hs := by
      intro q hq
      by_cases hc : (bestRun hs).1 + (bestRun hs).2 = hs.length
      · rw [if_pos hc] at hq
        rcases List.mem_append.mp hq with hq | hq
        · exact Or.inr hq
        · simp only [List.mem_singleton] at hq
          exact Or.inl hq
      · rw [if_neg hc] at hq
        exact Or.inr hq
    by_cases hbs : (bestRun hs).1 = 0
    · rw [if_pos hbs] at h
      rcases List.mem_cons.mp h with rfl | h
      · exact Or.inl rfl
      · rcases List.mem_append.mp h with h | h
        · rcases List.mem_append.mp h with h | h
          · exact hs1 _ (List.mem_of_mem_take h)
          · simp only [List.mem_singleton] at h
            exact Or.inl h
        · exact hs1 _ (List.mem_of_mem_drop h)
    · rw [if_neg hbs] at h
      rcases List.mem_append.mp h with h | h
      · rcases List.mem_append.mp h with h | h
        · exact hs1 _ (List.mem_of_mem_take h)
        · simp only [List.mem_singleton] at h
          exact Or.inl h
      · exact hs1 _ (List.mem_of_mem_drop h)
  · rw [if_neg hbl] at h
    exact Or.inr h

set_option linter.unnecessarySeqFocus false in
theorem compress_hextets_len2 (n : Nat) : 2 ≤ (_compress_hextets (hextets8 n)).length := by
  rcases hbr : bestRun (hextets8 n) with ⟨bs, bl⟩
  have hspec := bestRun_spec (hextets8 n)
  rw [hbr] at hspec
  by_cases hbl : 1 < bl
  · have hsh := compress_shape hbr hbl hspec.1
    by_cases hbs : bs = 0 <;> by_cases hend : bs + bl = (hextets8 n).length <;>
      simp [hsh, hbs, hend, hextets8_length] <;> omega
  · have hnc : _compress_hextets (hextets8 n) = hextets8 n := by
      unfold _compress_hextets
      rw [hbr]
      simp only []
      rw [if_neg (by simpa using hbl)]
    rw [hnc, hextets8_length]
    omega

theorem colon_mem_ipv6_to_string (n : Nat) : ':' ∈ ipv6_to_string n :=
  sep_mem_joinSep (compress_hextets_len2 n)

theorem slash_not_mem_ipv6_to_string (n : Nat) : '/' ∉ ipv6_to_string n := by
  intro hc
  rcases mem_joinSep hc with h | ⟨p, hp, hcp⟩
  · exact absurd h (by decide)
  · rcases mem_compress_hextets hp with rfl | hp2
    · exact absurd hcp (List.not_mem_nil _)
    · rcases mem_hextets8 hp2 with ⟨v, rfl⟩
      exact hexDigit_ne_slash (hexRep_digits '/' hcp) rfl

theorem slash_not_mem_ipv4_to_string (n : Nat) : '/' ∉ ipv4_to_string n := by
  intro hc
  rcases mem_joinSep hc with h | ⟨p, hp, hcp⟩
  · exact absurd h (by decide)
  · simp only [List.mem_cons, List.not_mem_nil, or_false] at hp
    rcases hp with rfl | rfl | rfl | rfl <;>
      exact decDigit_ne_slash (decRep_digits '/' hcp) rfl

theorem slash_not_mem_decRep (n : Nat) : '/' ∉ decRep n := by
  intro hc
  exact decDigit_ne_slash (decRep_digits '/' hc) rfl

theorem ip_address_inv {s : List Char} {fam : Bool} {v : Nat}
    (h : ip_address s = some (fam, v)) :
    (fam = false ∧ ipv4_from_string s = some v ∧ v < 2 ^ 32)
      ∨ (fam = true ∧ ipv6_from_string s = some v ∧ v < 2 ^ 128
          ∧ ipv4_from_string s = none) := by
  unfold ip_address at h
  cases hv4 : ipv4_from_string s with
  | some w =>
    rw [hv4] at h
    injection h with h2
    injection h2 with ha hb
    subst ha
    subst hb
    exact Or.inl ⟨rfl, rfl, (ipv4_parse_bound_chars hv4).1⟩
  | none =>
    rw [hv4] at h
    cases hv6 : ipv6_from_string s with
    | some w =>
      rw [hv6] at h
      injection h with h2
      injection h2 with ha hb
      subst ha
      subst hb
      exact Or.inr ⟨rfl, rfl, ipv6_parse_bound hv6, rfl⟩
    | none =>
      rw [hv6] at h
      exact absurd h (by simp)

theorem hex_int_roundtrip_128 {v : Nat} (h : v < 2 ^ 128) :
    _hex_to_int (_int_to_hex v) = v := by
  unfold _int_to_hex
  exact _hex_to_int_padHex (by omega) (by
    have : (16 : Nat) ^ 32 = 2 ^ 128 := by norm_num
    omega)

/-- C7, counterexample to the literal claim: `"2001:0db8::1"` is a
syntactically valid IPv6 literal, but decoding its encoding yields the
canonical compression `"2001:db8::1"`, not the original string. -/
theorem decode_encode_not_identity_cex :
    ip_address ("2001:0db8::1".toList)
        = some (true, 0x20010db8000000000000000000000001)
      ∧ decode_encode ("2001:0db8::1".toList) = some ("2001:db8::1".toList)
      ∧ "2001:0db8::1".toList ≠ "2001:db8::1".toList := by
  refine ⟨by decide, by decide, by decide⟩

/-- C7 (amended): for every parseable address literal, decoding the stored
hex key under the parsed family flag returns the literal itself when the
family is IPv4, and returns the canonical compressed rendering of the parsed
value when the family is IPv6; that canonical rendering re-parses to the
same value, so the key-level round trip always holds while the string-level
round trip holds exactly on canonical forms. -/
theorem decode_encode_canonical {s : List Char} {fam : Bool} {v : Nat}
    (h : ip_address s = some (fam, v)) :
    (fam = false → decode_encode s = some s)
      ∧ (fam = true → decode_encode s = some (ipv6_to_string v)
          ∧ ipv6_from_string (ipv6_to_string v) = some v) := by
  rcases ip_address_inv h with ⟨hf, hv4, hb⟩ | ⟨hf, hv6, hb, hv4n⟩
  · subst hf
    refine ⟨fun _ => ?_, fun hcontra => absurd hcontra Bool.false_ne_true⟩
    unfold decode_encode
    rw [h]
    show some (ipv4_to_string (_hex_to_int (_int_to_hex v))) = some s
    rw [show _hex_to_int (_int_to_hex v) = v from _hex_to_int_padHex (by omega) (by
      have h1 : (2 : Nat) ^ 32 ≤ 16 ^ 32 := Nat.pow_le_pow_left (by norm_num) 32
      omega)]
    rw [ipv4_round_trip_string hv4]
  · subst hf
    refine ⟨fun hcontra => absurd hcontra.symm Bool.false_ne_true,
      fun _ => ⟨?_, ipv6_round_trip_value hb⟩⟩
    unfold decode_encode
    rw [h]
    show some (ipv6_to_string (_hex_to_int (_int_to_hex v))) = some (ipv6_to_string v)
    rw [hex_int_roundtrip_128 hb]

/-- C7 witness: the amended theorem applied to the canonical literal
`"2001:db8::1"`. -/
theorem decode_encode_canonical_w :
    ip_address ("2001:db8::1".toList)
        = some (true, 0x20010db8000000000000000000000001)
      ∧ decode_encode ("2001:db8::1".toList)
          = some (ipv6_to_string 0x20010db8000000000000000000000001)
      ∧ ipv6_from_string (ipv6_to_string 0x20010db8000000000000000000000001)
          = some 0x20010db8000000000000000000000001 := by
  have h : ip_address ("2001:db8::1".toList)
      = some (true, 0x20010db8000000000000000000000001) := by decide
  have h2 := (decode_encode_canonical h).2 rfl
  exact ⟨h, h2.1, h2.2⟩

theorem prefix_string_decRep {pl maxp : Nat} (h : pl ≤ maxp) :
    _prefix_from_prefix_string (decRep pl) maxp = some pl := by
  unfold _prefix_from_prefix_string
  have hne : (decRep pl).isEmpty = false := by
    rw [List.isEmpty_eq_false]
    exact decRep_ne_nil pl
  rw [hne]
  rw [show ((decRep pl).all isDecDigit) = true from List.all_eq_true.mpr decRep_digits]
  simp only [Bool.not_true, Bool.false_eq_true, if_false]
  rw [decVal_decRep]
  rw [if_neg (by simp; omega)]

theorem prefix_string_le {p : List Char} {maxp pl : Nat}
    (h : _prefix_from_prefix_string p maxp = some pl) : pl ≤ maxp := by
  unfold _prefix_from_prefix_string at h
  simp only [] at h
  split_ifs at h with h1 h2 h3
  injection h with hv
  subst hv
  simp only [decide_eq_true_eq, gt_iff_lt, not_lt] at h3
  exact h3

theorem maskAddr_eq (bits pl v : Nat) :
    maskAddr bits pl v = v / 2 ^ (bits - pl) * 2 ^ (bits - pl) := by
  unfold maskAddr
  rw [Nat.shiftRight_eq_div_pow, Nat.shiftLeft_eq]

theorem maskAddr_le (bits pl v : Nat) : maskAddr bits pl v ≤ v := by
  rw [maskAddr_eq]
  exact Nat.div_mul_le_self v _

theorem maskAddr_mod (bits pl v : Nat) : maskAddr bits pl v % 2 ^ (bits - pl) = 0 := by
  rw [maskAddr_eq]
  exact Nat.mul_mod_left _ _

theorem maskAddr_of_mod_zero {bits pl v : Nat} (h : v % 2 ^ (bits - pl) = 0) :
    maskAddr bits pl v = v := by
  rw [maskAddr_eq]
  exact Nat.div_mul_cancel (Nat.dvd_of_mod_eq_zero h)

theorem ipv4_network_inv {s : List Char} {net pl : Nat}
    (h : ipv4_network_from_string s = some (net, pl)) :
    net < 2 ^ 32 ∧ pl ≤ 32 ∧ net % 2 ^ (32 - pl) = 0 := by
  unfold ipv4_network_from_string at h
  split at h
  · rename_i x a heq
    cases hv : ipv4_from_string a with
    | none =>
      rw [hv] at h
      exact absurd h (by simp)
    | some v =>
      rw [hv] at h
      injection h with h2
      injection h2 with ha hb
      subst ha
      subst hb
      exact ⟨lt_of_le_of_lt (maskAddr_le 32 32 v) (ipv4_parse_bound_chars hv).1,
        le_refl 32, maskAddr_mod 32 32 v⟩
  · rename_i x a p heq
    cases hv : ipv4_from_string a with
    | none =>
      rw [hv] at h
      exact absurd h (by simp)
    | some v =>
      rw [hv] at h
      cases hp : _prefix_from_prefix_string p 32 with
      | none =>
        rw [hp] at h
        exact absurd h (by simp)
      | some pl' =>
        rw [hp] at h
        injection h with h2
        injection h2 with ha hb
        subst ha
        subst hb
        exact ⟨lt_of_le_of_lt (maskAddr_le 32 pl' v) (ipv4_parse_bound_chars hv).1,
          prefix_string_le hp, maskAddr_mod 32 pl' v⟩
  · exact absurd h (by simp)

theorem ipv6_network_inv {s : List Char} {net pl : Nat}
    (h : ipv6_network_from_string s = some (net, pl)) :
    net < 2 ^ 128 ∧ pl ≤ 128 ∧ net % 2 ^ (128 - pl) = 0 := by
  unfold ipv6_network_from_string at h
  split at h
  · rename_i x a heq
    cases hv : ipv6_from_string a with
    | none =>
      rw [hv] at h
      exact absurd h (by simp)
    | some v =>
      rw [hv] at h
      injection h with h2
      injection h2 with ha hb
      subst ha
      subst hb
      exact ⟨lt_of_le_of_lt (maskAddr_le 128 128 v) (ipv6_parse_bound hv),
        le_refl 128, maskAddr_mod 128 128 v⟩
  · rename_i x a p heq
    cases hv : ipv6_from_string a with
    | none =>
      rw [hv] at h
      exact absurd h (by simp)
    | some v =>
      rw [hv] at h
      cases hp : _prefix_from_prefix_string p 128 with
      | none =>
        rw [hp] at h
        exact absurd h (by simp)
      | some pl' =>
        rw [hp] at h
        injection h with h2
        injection h2 with ha hb
        subst ha
        subst hb
        exact ⟨lt_of_le_of_lt (maskAddr_le 128 pl' v) (ipv6_parse_bound hv),
          prefix_string_le hp, maskAddr_mod 128 pl' v⟩
  · exact absurd h (by simp)

theorem ipv4_network_render {net pl : Nat} (hnet : net < 2 ^ 32) (hpl : pl ≤ 32)
    (hmod : net % 2 ^ (32 - pl) = 0) :
    ipv4_network_from_string (ipv4_to_string net ++ '/' :: decRep pl) = some (net, pl) := by
  unfold ipv4_network_from_string
  rw [splitOnChar_append_sep (slash_not_mem_ipv4_to_string net) (decRep pl),
    splitOnChar_of_not_mem (slash_not_mem_decRep pl)]
  dsimp only
  rw [ipv4_round_trip_value hnet]
  dsimp only
  rw [prefix_string_decRep hpl]
  dsimp only
  rw [maskAddr_of_mod_zero hmod]

theorem ipv6_network_render {net pl : Nat} (hnet : net < 2 ^ 128) (hpl : pl ≤ 128)
    (hmod : net % 2 ^ (128 - pl) = 0) :
    ipv6_network_from_string (ipv6_to_string net ++ '/' :: decRep pl) = some (net, pl) := by
  unfold ipv6_network_from_string
  rw [splitOnChar_append_sep (slash_not_mem_ipv6_to_string net) (decRep pl),
    splitOnChar_of_not_mem (slash_not_mem_decRep pl)]
  dsimp only
  rw [ipv6_round_trip_value hnet]
  dsimp only
  rw [prefix_string_decRep hpl]
  dsimp only
  rw [maskAddr_of_mod_zero hmod]

theorem ipv4_net_none_on_v6 (net pl : Nat) :
    ipv4_network_from_string (ipv6_to_string net ++ '/' :: decRep pl) = none := by
  unfold ipv4_network_from_string
  rw [splitOnChar_append_sep (slash_not_mem_ipv6_to_string net) (decRep pl),
    splitOnChar_of_not_mem (slash_not_mem_decRep pl)]
  dsimp only
  cases hv : ipv4_from_string (ipv6_to_string net) with
  | none => rfl
  | some w =>
    exact absurd (colon_mem_ipv6_to_string net) (ipv4_parse_bound_chars hv).2.1

/-- C8: for every CIDR string accepted by the validator, the stored triple
records the true network address (host bits zeroed), and normalization is
idempotent: parsing the canonical string rendering of the stored network
yields the same (family, network, prefix) triple, hence the same stored
(hex key, prefix, family) triple. -/
theorem normalize_idempotent {s : List Char} {fam : Bool} {net pl : Nat}
    (h : ip_network s = some (fam, net, pl)) :
    normalize_cidr s = some (_int_to_hex net, pl, fam)
      ∧ ip_network (network_str fam net pl) = some (fam, net, pl)
      ∧ normalize_cidr (network_str fam net pl) = normalize_cidr s
      ∧ net % 2 ^ ((if fam then 128 else 32) - pl) = 0 := by
  have hfirst : normalize_cidr s = some (_int_to_hex net, pl, fam) := by
    unfold normalize_cidr
    rw [h]
  have hre : ip_network (network_str fam net pl) = some (fam, net, pl) := by
    unfold ip_network at h
    cases hv4 : ipv4_network_from_string s with
    | some q =>
      rw [hv4] at h
      rcases q with ⟨net', pl'⟩
      injection h with h2
      injection h2 with ha hb
      injection hb with hb hc
      subst ha
      subst hb
      subst hc
      rcases ipv4_network_inv hv4 with ⟨hn, hp, hm⟩
      show ip_network (ipv4_to_string net' ++ '/' :: decRep pl') = _
      unfold ip_network
      rw [ipv4_network_render hn hp hm]
    | none =>
      rw [hv4] at h
      cases hv6 : ipv6_network_from_string s with
      | none =>
        rw [hv6] at h
        exact absurd h (by simp)
      | some q =>
        rw [hv6] at h
        rcases q with ⟨net', pl'⟩
        injection h with h2
        injection h2 with ha hb
        injection hb with hb hc
        subst ha
        subst hb
        subst hc
        rcases ipv6_network_inv hv6 with ⟨hn, hp, hm⟩
        show ip_network (ipv6_to_string net' ++ '/' :: decRep pl') = _
        unfold ip_network
        rw [ipv4_net_none_on_v6 net' pl', ipv6_network_render hn hp hm]
  refine ⟨hfirst, hre, ?_, ?_⟩
  · unfold normalize_cidr
    rw [h, hre]
  · unfold ip_network at h
    cases hv4 : ipv4_network_from_string s with
    | some q =>
      rw [hv4] at h
      rcases q with ⟨net', pl'⟩
      injection h with h2
      injection h2 with ha hb
      injection hb with hb hc
      subst ha
      subst hb
      subst hc
      simpa using (ipv4_network_inv hv4).2.2
    | none =>
      rw [hv4] at h
      cases hv6 : ipv6_network_from_string s with
      | none =>
        rw [hv6] at h
        exact absurd h (by simp)
      | some q =>
        rw [hv6] at h
        rcases q with ⟨net', pl'⟩
        injection h with h2
        injection h2 with ha hb
        injection hb with hb hc
        subst ha
        subst hb
        subst hc
        simpa using (ipv6_network_inv hv6).2.2

/-- C8 witness: `192.168.1.5/24` normalizes to network `192.168.1.0`
(host bits zeroed) and re-normalizing its rendering is a fixed point. -/
theorem normalize_idempotent_w :
    ip_network ("192.168.1.5/24".toList) = some (false, 0xc0a80100, 24)
      ∧ normalize_cidr ("192.168.1.5/24".toList) = some (_int_to_hex 0xc0a80100, 24, false)
      ∧ ip_network (network_str false 0xc0a80100 24) = some (false, 0xc0a80100, 24)
      ∧ normalize_cidr (network_str false 0xc0a80100 24)
          = normalize_cidr ("192.168.1.5/24".toList)
      ∧ (0xc0a80100 : Nat) % 2 ^ ((if false then 128 else 32) - 24) = 0 := by
  have h : ip_network ("192.168.1.5/24".toList) = some (false, 0xc0a80100, 24) := by
    decide
  have h2 := normalize_idempotent h
  exact ⟨h, h2.1, h2.2.1, h2.2.2.1, h2.2.2.2⟩
